import Mathlib

/-!
Verification of the workflow-executor repository (`src/workflow/workflow__executor.py`,
`src/workflow/workflow__types.py`, `src/workflow/workflow__state.py`,
`src/steps/step__base.py`) against its natural-language specification.

The Python code is shallowly embedded: pure functions become Lean functions, the
executor's mutable state becomes explicit state threading, the `asyncio` wave
dispatch (`asyncio.gather` awaited before the next iteration) becomes a fold
over the selected step names, and exceptions become `Except String`.  Wall-clock
time (`time.time()`) is abstracted: every recorded timestamp and duration that
the code computes from the clock is modelled as `0`; durations that the code
hard-codes (the `0.0` of the skip path) are likewise `0`.  Python dictionaries
are modelled as insertion-ordered association lists, Python sets as lists where
only membership matters.
-/

namespace Workflow

/-- A Python value as far as this code base observes one: step outputs and the
entries of `input_data` are opaque, and the only operations applied to them are
the `is None` test and `str(...)`.  `PyObj.none` is Python `None`. -/
inductive PyObj where
  | none : PyObj
  | str : String → PyObj
  deriving DecidableEq, Repr

/-- Python `str(obj)` restricted to the values of `PyObj` (`str(None) = "None"`). -/
def pyStrOf : PyObj → String
  | PyObj.none => "None"
  | PyObj.str s => s

/-- `StepStatus` from `workflow__types.py`. -/
inductive StepStatus where
  | PENDING | RUNNING | COMPLETED | FAILED | SKIPPED
  deriving DecidableEq, Repr

/-- `WorkflowStatus` from `workflow__types.py`. -/
inductive WorkflowStatus where
  | PENDING | RUNNING | COMPLETED | FAILED | CANCELLED
  deriving DecidableEq, Repr

/-- The execution context assembled by `execute_workflow` for each dispatch:
`{"input_data": ..., "step_outputs": ...}`. -/
structure Ctx where
  input_data : List (String × PyObj) := []
  step_outputs : List (String × PyObj) := []
  deriving DecidableEq, Repr

/-! ## String helpers: Python `in` (substring) and `str.split` / `str.strip` -/

/-- `needle` is a prefix of `hay` (on character lists). -/
def charsPrefixOf : List Char → List Char → Bool
  | [], _ => true
  | _ :: _, [] => false
  | a :: as, b :: bs => a == b && charsPrefixOf as bs

/-- `needle` occurs contiguously in `hay` (on character lists). -/
def charsSubOf (needle : List Char) : List Char → Bool
  | [] => charsPrefixOf needle []
  | b :: bs => charsPrefixOf needle (b :: bs) || charsSubOf needle bs

/-- Python `pat in hay` for strings: contiguous-substring test. -/
def strContains (hay pat : String) : Bool :=
  charsSubOf pat.toList hay.toList

/-- Python `s.lower()` (character-wise lowercasing; all the strings this code
matches on are ASCII). -/
def pyLower (s : String) : String := String.mk (s.toList.map Char.toLower)

/-- The whitespace characters Python's `str.split()` / `str.strip()` split on
(restricted to ASCII, which is all this code base produces). -/
def pyIsSpace (c : Char) : Bool :=
  c == ' ' || c == '\t' || c == '\n' || c == '\r' || c == '\x0b' || c == '\x0c'

/-- Token counter behind Python `len(text.split())`: number of maximal runs of
non-whitespace characters.  The boolean state records whether the scan is
currently inside a word. -/
def countTokens : Bool → List Char → Nat
  | _, [] => 0
  | inWord, c :: cs =>
    if pyIsSpace c then countTokens false cs
    else (if inWord then 0 else 1) + countTokens true cs

/-- Python `len(s.split())`. -/
def pySplitCount (s : String) : Nat := countTokens false s.toList

/-- Python `s.strip()`: drop leading and trailing whitespace. -/
def pyStrip (s : String) : String :=
  String.mk (((s.toList.dropWhile pyIsSpace).reverse.dropWhile pyIsSpace).reverse)

/-! ## `step__base.py` -/

/-- `condition_min_output_words` from `step__base.py`, lines 9-31. -/
def condition_min_output_words (step_name : String) (min_words : Nat) : Ctx → Bool :=
  fun context =>
    match List.lookup step_name context.step_outputs with
    | Option.none => false
    | Option.some output =>
      match output with
      | PyObj.none => false
      | _ =>
        let text := pyStrip (pyStrOf output)
        let word_count := if text ≠ "" then pySplitCount text else 0
        decide (min_words ≤ word_count)

/-- Modelled from the spec's words for the refinement comparison of claim C9
("returns true iff `step_outputs[step_name]` exists, stringifies non-empty, and
contains at least `n` whitespace-separated tokens"); compared against
`condition_min_output_words`, which is translated from the source. -/
def spec_min_output_words (step_name : String) (min_words : Nat) (context : Ctx) : Bool :=
  match List.lookup step_name context.step_outputs with
  | Option.none => false
  | Option.some output =>
    decide (pyStrOf output ≠ "") && decide (min_words ≤ pySplitCount (pyStrOf output))

/-- The retryable substring list of `Step.is_retryable_error` (`step__base.py`
lines 113-124). -/
def retryable_patterns : List String :=
  ["timeout", "connection", "rate limit", "429", "500", "502", "503", "504",
   "temporary", "transient"]

/-- The non-retryable substring list of `Step.is_retryable_error`
(`step__base.py` lines 127-136). -/
def non_retryable_patterns : List String :=
  ["authentication", "permission", "not found", "400", "401", "403", "404", "invalid"]

/-- `Step.is_retryable_error` from `step__base.py`, lines 98-147, as a function
of the error message (`str(error)`). -/
def default_is_retryable_error (message : String) : Bool :=
  let error_str := pyLower message
  if non_retryable_patterns.any (fun p => strContains error_str p) then false
  else if retryable_patterns.any (fun p => strContains error_str p) then true
  else false

/-- `Step.get_dependency_output` from `step__base.py`, lines 164-181. -/
def get_dependency_output (context : Ctx) (step_name : String) : Except String PyObj :=
  match List.lookup step_name context.step_outputs with
  | Option.none => Except.error ("Step '" ++ step_name ++ "' output not found in context")
  | Option.some v => Except.ok v

/-! ## The step contract (`Step.__init__` of `step__base.py`) -/

/-- Outcome of one invocation of a step's `execute` under `asyncio.wait_for`:
it returns an output, raises an exception carrying a message, or exceeds the
timeout (`asyncio.TimeoutError`). -/
inductive AttemptOutcome where
  | success (output : PyObj)
  | failure (message : String)
  | timeout
  deriving Repr

/-- A workflow step: the constructor arguments of `Step.__init__` plus the two
behaviours a concrete subclass supplies — `run` gives the outcome of the k-th
`execute` attempt (1-based) in a given context, and `is_retryable_error` is the
step's classifier (defaulting to the base-class implementation). -/
structure StepDef where
  name : String
  depends_on : List String := []
  timeout_seconds : ℚ := 30
  max_retries : Nat := 3
  condition : Option (Ctx → Bool) := Option.none
  is_retryable_error : String → Bool := default_is_retryable_error
  run : Ctx → Nat → AttemptOutcome

/-- `Step.is_condition_met` from `step__base.py`, lines 64-78. -/
def is_condition_met (step : StepDef) (context : Ctx) : Bool :=
  match step.condition with
  | Option.none => true
  | Option.some c => c context

/-! ## `workflow__types.py` records -/

/-- `StepResult` from `workflow__types.py`, lines 28-38, with the dataclass
defaults (`error=None`, `duration_ms=0.0`, `attempts=1`,
`started_at=None`, `completed_at=None`).  Wall-clock quantities are
abstracted to `0`. -/
structure StepResult where
  status : StepStatus
  output : PyObj
  error : Option String := Option.none
  duration_ms : ℚ := 0
  attempts : Nat := 1
  started_at : Option ℚ := Option.none
  completed_at : Option ℚ := Option.none
  deriving DecidableEq, Repr

/-- `ProgressEvent` from `workflow__types.py` (the fields the executor sets). -/
structure ProgressEvent where
  workflow_id : String
  event_type : String
  step_name : String
  step_status : StepStatus
  deriving DecidableEq, Repr

/-- `WorkflowState` from `workflow__types.py`, lines 41-51.  `step_results` is
the insertion-ordered dict; of `metadata` only the `"error"` key is ever
written by the executor, so it is modelled as `metadata_error`.  The clock
fields are abstracted away. -/
structure WorkflowState where
  workflow_id : String
  status : WorkflowStatus := WorkflowStatus.PENDING
  step_results : List (String × StepResult) := []
  input_data : List (String × PyObj) := []
  metadata_error : Option String := Option.none
  deriving DecidableEq, Repr

/-- `WorkflowState.get_completed_steps` from `workflow__types.py`, lines 60-66. -/
def get_completed_steps (state : WorkflowState) : List String :=
  (state.step_results.filter (fun p => p.2.status == StepStatus.COMPLETED)).map (fun p => p.1)

/-! ## Python-dict helpers -/

/-- Python `d[k] = v` on an insertion-ordered association list: overwrite in
place if the key exists, append otherwise. -/
def dictInsert {α : Type} (d : List (String × α)) (k : String) (v : α) : List (String × α) :=
  if (List.lookup k d).isSome then
    d.map (fun p => if p.1 == k then (k, v) else p)
  else
    d ++ [(k, v)]

/-! ## `WorkflowExecutor._execute_step` (timeout + retry loop) -/

/-- The message of the error synthesized on `asyncio.TimeoutError`
(`workflow__executor.py` lines 195-198). -/
def timeoutMessage (step : StepDef) : String :=
  "Step '" ++ step.name ++ "' timed out after " ++ toString step.timeout_seconds ++ "s"

/-- A FAILED `StepResult` as built at `workflow__executor.py` lines 213-221
(durations and timestamps abstracted to 0). -/
def mkFailedResult (attempts : Nat) (last_error : Option String) : StepResult :=
  { status := StepStatus.FAILED, output := PyObj.none, error := last_error,
    duration_ms := 0, attempts := attempts,
    started_at := Option.some 0, completed_at := Option.some 0 }

/-- A COMPLETED `StepResult` as built at `workflow__executor.py` lines 186-193. -/
def mkCompletedResult (output : PyObj) (attempts : Nat) : StepResult :=
  { status := StepStatus.COMPLETED, output := output, error := Option.none,
    duration_ms := 0, attempts := attempts,
    started_at := Option.some 0, completed_at := Option.some 0 }

/-- The `while attempts < step.max_retries` loop of `_execute_step`
(`workflow__executor.py` lines 178-221).  `remaining = max_retries - attempts`
counts the loop iterations still allowed, so the guard `attempts <
step.max_retries` is `remaining > 0` and the in-loop test
`attempts < step.max_retries` after the increment is `0 < remaining - 1`.
Besides the `StepResult` the function returns the list of attempt numbers
after which a backoff sleep and a further attempt were launched
(`await self._exponential_backoff(attempts); continue`). -/
def execStepLoop (step : StepDef) (context : Ctx) :
    Nat → Nat → Option String → List Nat → StepResult × List Nat
  | 0, attempts, last_error, retries => (mkFailedResult attempts last_error, retries)
  | Nat.succ remaining, attempts, _, retries =>
    let a := attempts + 1
    match step.run context a with
    | AttemptOutcome.success out => (mkCompletedResult out a, retries)
    | AttemptOutcome.timeout =>
      if 0 < remaining then
        execStepLoop step context remaining a (Option.some (timeoutMessage step)) (retries ++ [a])
      else (mkFailedResult a (Option.some (timeoutMessage step)), retries)
    | AttemptOutcome.failure msg =>
      if step.is_retryable_error msg && decide (0 < remaining) then
        execStepLoop step context remaining a (Option.some msg) (retries ++ [a])
      else (mkFailedResult a (Option.some msg), retries)

/-- `WorkflowExecutor._execute_step` (`workflow__executor.py` lines 163-221). -/
def execute_step (step : StepDef) (context : Ctx) : StepResult × List Nat :=
  execStepLoop step context step.max_retries 0 Option.none []

/-! ## `WorkflowExecutor._execute_step_with_tracking` -/

/-- Everything one `_execute_step_with_tracking` task does: the `StepResult` it
writes into `state.step_results`, the progress events it emits (modelled with
emission enabled; the `enable_progress_events` flag only gates retention),
whether the step's `execute` was invoked at all, the backoff/retry attempt
numbers, and the exception the coroutine itself raised if any.  The coroutine
catches nothing but also raises nothing — every failure of `execute` is caught
inside `_execute_step` and turned into a FAILED `StepResult` — so `raised` is
`none` on both paths of the definition below. -/
structure TrackResult where
  recorded : StepResult
  events : List ProgressEvent
  invoked_execute : Bool
  retries : List Nat
  raised : Option String
  deriving Repr

/-- `WorkflowExecutor._should_execute_step` (`workflow__executor.py` lines 136-141). -/
def should_execute_step (step : StepDef) (context : Ctx) : Bool :=
  is_condition_met step context

/-- `WorkflowExecutor._execute_step_with_tracking` (`workflow__executor.py`
lines 143-161).  The Python skip branch builds
`StepResult(status=SKIPPED, output=None, duration_ms=0.0)`, leaving every other
field at its dataclass default — in particular `attempts = 1`. -/
def execute_step_with_tracking (workflow_id : String) (step : StepDef) (context : Ctx) :
    TrackResult :=
  if should_execute_step step context then
    let (result, retries) := execute_step step context
    { recorded := result,
      events := [{ workflow_id := workflow_id, event_type := "step_start",
                   step_name := step.name, step_status := StepStatus.RUNNING },
                 { workflow_id := workflow_id, event_type := "step_complete",
                   step_name := step.name, step_status := result.status }],
      invoked_execute := true, retries := retries, raised := Option.none }
  else
    { recorded := { status := StepStatus.SKIPPED, output := PyObj.none, duration_ms := 0 },
      events := [{ workflow_id := workflow_id, event_type := "step_complete",
                   step_name := step.name, step_status := StepStatus.SKIPPED }],
      invoked_execute := false, retries := [], raised := Option.none }

/-! ## `WorkflowExecutor._build_dependency_graph` and cycle detection -/

/-- The dependency graph: Python `Dict[str, Set[str]]` as an insertion-ordered
association list. -/
abbrev Graph := List (String × List String)

/-- Python `graph.get(node, set())`. -/
def graphGet (g : Graph) (node : String) : List String :=
  match List.lookup node g with
  | Option.some deps => deps
  | Option.none => []

/-- The dependency-edge relation of a built graph: `a` depends on `b`. -/
def graphEdge (g : Graph) (a b : String) : Prop := b ∈ graphGet g a

/-- The dependency-edge relation straight off a step list: some step named `a`
declares `b` among its `depends_on`. -/
def depEdge (steps : List StepDef) (a b : String) : Prop :=
  ∃ s ∈ steps, s.name = a ∧ b ∈ s.depends_on

/-- All step names in declaration order (`step.name for step in steps`). -/
def stepNames (steps : List StepDef) : List String := steps.map (fun s => s.name)

/-- Every node name the cycle DFS can ever touch: the graph's keys plus every
dependency name. -/
def nodeUniverse (g : Graph) : List String :=
  g.map (fun p => p.1) ++ (g.map (fun p => p.2)).flatten

/-- The fuel handed to each rooted DFS; `nodeUniverse` bounds the recursion
depth because every recursive call is on a node not yet visited and inserts it
into `visited`. -/
def cycleFuel (g : Graph) : Nat := (nodeUniverse g).length + 1

/-- The `for neighbor in graph.get(node, set())` body of `has_cycle`
(`workflow__executor.py` lines 278-286), with the recursive call abstracted as
`f` (it is instantiated with the DFS at one unit less fuel).  Returns
`(found, visited, rec_stack)`; on a `False` return the node is popped from
`rec_stack` (line 285), on a `True` return `rec_stack` is left as is (the
caller raises immediately). `Option.none` signals fuel exhaustion, which
`hasCycleFrom_isSome` below proves unreachable at `cycleFuel`. -/
def cycleNeighbors (f : String → List String → List String →
      Option (Bool × List String × List String)) (node : String) :
    List String → List String → List String → Option (Bool × List String × List String)
  | [], visited, recStack => Option.some (false, visited, recStack.erase node)
  | nb :: rest, visited, recStack =>
    if nb ∈ visited then
      if nb ∈ recStack then Option.some (true, visited, recStack)
      else cycleNeighbors f node rest visited recStack
    else
      match f nb visited recStack with
      | Option.none => Option.none
      | Option.some (true, v', r') => Option.some (true, v', r')
      | Option.some (false, v', r') => cycleNeighbors f node rest v' r'

/-- The recursive `has_cycle(node)` of `_validate_no_cycles`
(`workflow__executor.py` lines 274-286): mark the node visited and on the
recursion stack, then scan its neighbours. -/
def hasCycleFrom (g : Graph) : Nat → String → List String → List String →
    Option (Bool × List String × List String)
  | 0, _, _, _ => Option.none
  | Nat.succ fuel, node, visited, recStack =>
    cycleNeighbors (fun nb v r => hasCycleFrom g fuel nb v r) node (graphGet g node)
      (visited ++ [node]) (recStack ++ [node])

/-- The `ValueError` message of `_validate_no_cycles` line 291. -/
def cycleMessage (node : String) : String :=
  "Circular dependency detected involving step '" ++ node ++ "'"

/-- The `for node in graph` loop of `_validate_no_cycles`
(`workflow__executor.py` lines 288-291): run the DFS from every not-yet-visited
key, raising on the first `True`. -/
def validateCycles (g : Graph) : List String → List String → List String → Except String Unit
  | [], _, _ => Except.ok ()
  | node :: rest, visited, recStack =>
    if node ∈ visited then validateCycles g rest visited recStack
    else
      match hasCycleFrom g (cycleFuel g) node visited recStack with
      | Option.none => Except.error "model: cycle-detection fuel exhausted"
      | Option.some (true, _, _) => Except.error (cycleMessage node)
      | Option.some (false, v', r') => validateCycles g rest v' r'

/-- `WorkflowExecutor._validate_no_cycles` (`workflow__executor.py` lines 261-291). -/
def validate_no_cycles (g : Graph) : Except String Unit :=
  validateCycles g (g.map (fun p => p.1)) [] []

/-- The `ValueError` message of `_build_dependency_graph` line 253. -/
def unknownDepMessage (stepName dep : String) : String :=
  "Step '" ++ stepName ++ "' depends on '" ++ dep ++ "' which does not exist"

/-- The `for dep in step.depends_on` check: the first declared dependency that
is not a known step name, if any. -/
def firstMissingDep (deps names : List String) : Option String :=
  deps.find? (fun d => !(names.contains d))

/-- The `for step in steps` loop of `_build_dependency_graph`
(`workflow__executor.py` lines 250-255). -/
def buildGraphLoop (names : List String) : List StepDef → Graph → Except String Graph
  | [], graph => Except.ok graph
  | step :: rest, graph =>
    match firstMissingDep step.depends_on names with
    | Option.some d => Except.error (unknownDepMessage step.name d)
    | Option.none => buildGraphLoop names rest (dictInsert graph step.name step.depends_on)

/-- `WorkflowExecutor._build_dependency_graph` (`workflow__executor.py`
lines 234-259). -/
def build_dependency_graph (steps : List StepDef) : Except String Graph :=
  match buildGraphLoop (stepNames steps) steps [] with
  | Except.error e => Except.error e
  | Except.ok graph =>
    match validate_no_cycles graph with
    | Except.error e => Except.error e
    | Except.ok _ => Except.ok graph

/-! ## The scheduling loop of `execute_workflow` -/

/-- `WorkflowExecutor._get_executable_steps` (`workflow__executor.py`
lines 293-317): the pending steps all of whose dependencies are in
`completed_steps`. -/
def get_executable_steps (pending completed : List String) (graph : Graph) : List String :=
  pending.filter (fun step_name => (graphGet graph step_name).all (fun d => completed.contains d))

/-- The `step_outputs` dict comprehension of `execute_workflow` lines 95-99:
`{name: state.step_results[name].output for name in completed_steps if name in
state.step_results}`. -/
def build_step_outputs (completed : List String) (step_results : List (String × StepResult)) :
    List (String × PyObj) :=
  completed.filterMap (fun n =>
    match List.lookup n step_results with
    | Option.some r => Option.some (n, r.output)
    | Option.none => Option.none)

/-- The mutable locals of `execute_workflow`'s loop plus the observation logs
the theorems below inspect: `dispatches` records, for every selected (= task
created) step, the context it received; `executed` records the steps whose
`execute` was actually invoked. -/
structure LoopState where
  pending : List String
  completed : List String
  failed : List String
  step_results : List (String × StepResult)
  events : List ProgressEvent
  dispatches : List (String × Ctx)
  executed : List String
  deriving Repr

/-- The `for step_name, result in zip(...)` loop over the gathered results
(`workflow__executor.py` lines 105-117).  `t.raised` is the exception the
tracking coroutine itself raised; `execute_step_with_tracking` always returns
`raised = none` (all step errors are captured into the recorded `StepResult`),
so the `isinstance(result, Exception)` branch that populates `failed_steps` is
dead and every settled step — COMPLETED, SKIPPED or FAILED — is added to
`completed_steps`. -/
def processResults : LoopState → List (String × TrackResult) → LoopState
  | ls, [] => ls
  | ls, (step_name, t) :: rest =>
    let ls := { ls with pending := ls.pending.erase step_name }
    match t.raised with
    | Option.some e =>
      processResults
        { ls with failed := ls.failed ++ [step_name],
                  step_results := dictInsert ls.step_results step_name
                    { status := StepStatus.FAILED, output := PyObj.none,
                      error := Option.some e, duration_ms := 0 } } rest
    | Option.none =>
      processResults { ls with completed := ls.completed ++ [step_name] } rest

/-- Fallback for the (unreachable) case that a selected name is missing from
`step_map`; `execute_workflow` only selects names of `pending_steps`, which
start as the names of `steps`. -/
def lookupStep (step_map : List (String × StepDef)) (n : String) : StepDef :=
  match List.lookup n step_map with
  | Option.some step => step
  | Option.none => { name := n, run := fun _ _ => AttemptOutcome.failure "model: step not in step_map" }

/-- The `while pending_steps:` loop of `execute_workflow`
(`workflow__executor.py` lines 77-117).  One fuel unit per iteration; each
iteration settles at least one step, so `steps.length + 1` fuel never runs out
on the inputs the theorems below evaluate.  Returns the final locals and the
message of the exception the loop raised, if any. -/
def workflowLoop (wid : String) (input : List (String × PyObj)) (max_parallel_steps : Nat)
    (graph : Graph) (step_map : List (String × StepDef)) :
    Nat → LoopState → LoopState × Option String
  | 0, ls => (ls, Option.some "model: workflow-loop fuel exhausted")
  | Nat.succ fuel, ls =>
    if ls.pending.isEmpty then (ls, Option.none)
    else
      let executable := get_executable_steps ls.pending ls.completed graph
      if executable.isEmpty then
        (ls, Option.some ("Cannot execute remaining steps due to unmet dependencies: "
          ++ String.intercalate ", " ls.pending))
      else
        let selected := executable.take max_parallel_steps
        let context : Ctx := { input_data := input,
                               step_outputs := build_step_outputs ls.completed ls.step_results }
        let tracked := selected.map (fun n =>
          (n, execute_step_with_tracking wid (lookupStep step_map n) context))
        -- the state mutations performed inside the gathered tasks:
        let ls := { ls with
          step_results := tracked.foldl
            (fun d (p : String × TrackResult) => dictInsert d p.1 p.2.recorded) ls.step_results,
          events := ls.events ++ (tracked.map (fun p => p.2.events)).flatten,
          dispatches := ls.dispatches ++ tracked.map (fun p => (p.1, context)),
          executed := ls.executed ++ (tracked.filter (fun p => p.2.invoked_execute)).map (fun p => p.1) }
        workflowLoop wid input max_parallel_steps graph step_map fuel (processResults ls tracked)

/-- What one `execute_workflow` call produces: the returned state or raised
exception message, the final `state` object, the retained progress events, the
dispatch/execution logs, and the state store after the `finally:` save. -/
structure ExecOutcome where
  result : Except String WorkflowState
  state : WorkflowState
  events : List ProgressEvent
  dispatches : List (String × Ctx)
  executed : List String
  store : List (String × WorkflowState)
  deriving Repr

/-- `WorkflowExecutor.execute_workflow` (`workflow__executor.py` lines 40-134)
with the in-memory state store (`workflow__state.py`) passed and returned
explicitly.  `max_parallel_steps` defaults to 5 as in the constructor. -/
def execute_workflow (wid : String) (steps : List StepDef) (input : List (String × PyObj))
    (store : List (String × WorkflowState)) (max_parallel_steps : Nat := 5) : ExecOutcome :=
  let state0 : WorkflowState :=
    { workflow_id := wid, status := WorkflowStatus.RUNNING, input_data := input }
  match build_dependency_graph steps with
  | Except.error msg =>
    -- `except Exception as e:` sets FAILED and metadata["error"], re-raises;
    -- `finally:` saves the state.
    let st := { state0 with status := WorkflowStatus.FAILED, metadata_error := Option.some msg }
    { result := Except.error msg, state := st, events := [], dispatches := [],
      executed := [], store := dictInsert store wid st }
  | Except.ok graph =>
    let step_map := steps.map (fun s => (s.name, s))
    let ls0 : LoopState := { pending := stepNames steps, completed := [], failed := [],
                             step_results := [], events := [], dispatches := [], executed := [] }
    let (ls, raised) := workflowLoop wid input max_parallel_steps graph step_map
      (steps.length + 1) ls0
    match raised with
    | Option.some msg =>
      let st := { state0 with
        status := WorkflowStatus.FAILED,
        metadata_error := Option.some msg, step_results := ls.step_results }
      { result := Except.error msg, state := st, events := ls.events,
        dispatches := ls.dispatches, executed := ls.executed, store := dictInsert store wid st }
    | Option.none =>
      if ls.failed.isEmpty then
        let st := { state0 with
          status := WorkflowStatus.COMPLETED,
          step_results := ls.step_results }
        { result := Except.ok st, state := st, events := ls.events,
          dispatches := ls.dispatches, executed := ls.executed, store := dictInsert store wid st }
      else
        let msg := "Workflow failed. Failed steps: " ++ String.intercalate ", " ls.failed
        let st := { state0 with
          status := WorkflowStatus.FAILED,
          metadata_error := Option.some msg, step_results := ls.step_results }
        { result := Except.error msg, state := st, events := ls.events,
          dispatches := ls.dispatches, executed := ls.executed, store := dictInsert store wid st }

/-- `WorkflowExecutor.resume_workflow` (`workflow__executor.py` lines 346-375).
The outer `Except` carries the resume-path errors raised before any execution
(NOT_FOUND, ALREADY_COMPLETE). -/
def resume_workflow (wid : String) (steps : List StepDef)
    (store : List (String × WorkflowState)) : Except String ExecOutcome :=
  match List.lookup wid store with
  | Option.none => Except.error ("Workflow '" ++ wid ++ "' not found")
  | Option.some state =>
    if state.status == WorkflowStatus.COMPLETED then
      Except.error ("Workflow '" ++ wid ++ "' already completed")
    else
      let completed_step_names := get_completed_steps state
      let remaining_steps := steps.filter (fun s => !(completed_step_names.contains s.name))
      if remaining_steps.isEmpty then
        let st := { state with status := WorkflowStatus.COMPLETED }
        Except.ok { result := Except.ok st, state := st, events := [], dispatches := [],
                    executed := [], store := dictInsert store wid st }
      else
        Except.ok (execute_workflow wid remaining_steps state.input_data store)

/-! ## `WorkflowExecutor._exponential_backoff` -/

/-- The deterministic part of `_exponential_backoff` (`workflow__executor.py`
lines 223-232), in seconds: `delay = min(base_delay * 2**attempt, max_delay)`
with `base_delay = 0.1` (100 ms) and `max_delay = 5.0`. -/
def exponentialBackoffDelay (attempt : Nat) : ℚ :=
  min ((1 / 10) * 2 ^ attempt) 5

/-- The slept duration: `delay + jitter` with
`jitter = delay * 0.25 * (2 * random.random() - 1)`, where `r` stands for the
value drawn by `random.random()` (which lies in `[0, 1)`). -/
def exponentialBackoffSleep (attempt : Nat) (r : ℚ) : ℚ :=
  exponentialBackoffDelay attempt + exponentialBackoffDelay attempt * (1 / 4) * (2 * r - 1)

/-! ## Concrete inputs used by the evaluation theorems and witnesses -/

/-- A step whose `execute` always raises a non-retryable error ("invalid" is on
the non-retryable substring list). -/
def failingStep : StepDef :=
  { name := "A", run := fun _ _ => AttemptOutcome.failure "invalid input" }

/-- A step that declares a dependency on the failing step `"A"` and succeeds. -/
def dependentStep : StepDef :=
  { name := "C", depends_on := ["A"], run := fun _ _ => AttemptOutcome.success (PyObj.str "done") }

/-- A step producing the one-word output `"x"`. -/
def producerStep : StepDef :=
  { name := "A", run := fun _ _ => AttemptOutcome.success (PyObj.str "x") }

/-- A step gated on `condition_min_output_words "A" 10`; with `producerStep`'s
one-word output the condition is false and the step is skipped. -/
def gatedStep : StepDef :=
  { name := "B", depends_on := ["A"],
    condition := Option.some (condition_min_output_words "A" 10),
    run := fun _ _ => AttemptOutcome.success (PyObj.str "unused") }

/-- A step depending on the skipped step `"B"`. -/
def afterSkipStep : StepDef :=
  { name := "C", depends_on := ["B"], run := fun _ _ => AttemptOutcome.success (PyObj.str "done") }

/-- A step whose condition is constantly false. -/
def alwaysSkippedStep : StepDef :=
  { name := "S", condition := Option.some (fun _ => false),
    run := fun _ _ => AttemptOutcome.success (PyObj.str "x") }

/-- A step that fails retryably ("timeout" is on the retryable list) on attempt
1 and succeeds on attempt 2. -/
def retryingStep : StepDef :=
  { name := "RT", max_retries := 2,
    run := fun _ k =>
      if k < 2 then AttemptOutcome.failure "timeout while connecting"
      else AttemptOutcome.success (PyObj.str "ok") }

/-- The run of claim C1's failing input: a single step that settles FAILED. -/
def c1Outcome : ExecOutcome := execute_workflow "wf-c1" [failingStep] [] []

/-- The run of claim C2's failing input: `"C"` depends on the FAILED `"A"`. -/
def c2Outcome : ExecOutcome := execute_workflow "wf-c2" [failingStep, dependentStep] [] []

/-- The run of claim C3's failing input: `"A"` COMPLETED, `"B"` SKIPPED,
`"C"` depends on `"B"`. -/
def c3Outcome : ExecOutcome := execute_workflow "wf-c3" [producerStep, gatedStep, afterSkipStep] [] []

/-- A context whose `"A"` output stringifies to the empty string. -/
def emptyOutputCtx : Ctx := { step_outputs := [("A", PyObj.str "")] }

/-- A context whose `"A"` output is Python `None`. -/
def noneOutputCtx : Ctx := { step_outputs := [("A", PyObj.none)] }

/-- The property every logged retry of `execStepLoop` satisfies: the retried
attempt number is below `max_retries`, is a real attempt (≥ 1), and the
attempt's outcome was a timeout or an error the step's classifier calls
retryable. -/
def RetryOk (step : StepDef) (context : Ctx) (k : Nat) : Prop :=
  k < step.max_retries ∧ 1 ≤ k ∧
    (step.run context k = AttemptOutcome.timeout ∨
     ∃ m, step.run context k = AttemptOutcome.failure m ∧ step.is_retryable_error m = true)

/-- The stored prior state for the resume scenario of claim C10: step `"A"`
COMPLETED, step `"B"` FAILED, workflow FAILED. -/
def priorFailedState : WorkflowState :=
  { workflow_id := "wf10", status := WorkflowStatus.FAILED,
    step_results := [("A", mkCompletedResult (PyObj.str "out") 1),
                     ("B", mkFailedResult 1 (Option.some "invalid"))] }

/-- The original step list of the resume scenario: `"A"` with no dependencies,
`"B"` depending on `"A"`. -/
def resumeStepA : StepDef :=
  { name := "A", run := fun _ _ => AttemptOutcome.success (PyObj.str "out") }

/-- See `resumeStepA`. -/
def resumeStepB : StepDef :=
  { name := "B", depends_on := ["A"], run := fun _ _ => AttemptOutcome.success PyObj.none }

/-- A two-step workflow with mutually dependent steps (a dependency cycle). -/
def cyclicStepA : StepDef :=
  { name := "A", depends_on := ["B"], run := fun _ _ => AttemptOutcome.success PyObj.none }

/-- See `cyclicStepA`. -/
def cyclicStepB : StepDef :=
  { name := "B", depends_on := ["A"], run := fun _ _ => AttemptOutcome.success PyObj.none }

/-- A step depending on a name that is not in the workflow. -/
def ghostDepStep : StepDef :=
  { name := "A", depends_on := ["ghost"], run := fun _ _ => AttemptOutcome.success PyObj.none }

/-! ## Proof-level notions for the cycle-detection argument -/

/-- The graph `_build_dependency_graph` assembles when every dependency
reference is valid: one entry per step, in order. -/
def stepsGraph (steps : List StepDef) : Graph :=
  steps.map (fun s => (s.name, s.depends_on))

/-- A (possibly empty) dependency path from `n` leads to a node lying on a
dependency cycle.  Such an `n` can never have its transitive dependencies
satisfied. -/
def ReachesCycle (r : String → String → Prop) (n : String) : Prop :=
  ∃ c, Relation.ReflTransGen r n c ∧ Relation.TransGen r c c

/-- The set of "black" nodes of the DFS: visited and not on the recursion
stack. -/
def blackSet (visited recStack : List String) : String → Prop :=
  fun x => x ∈ visited ∧ ¬ x ∈ recStack

/-- `S` is closed under dependency edges. -/
def ClosedOn (g : Graph) (S : String → Prop) : Prop :=
  ∀ a, S a → ∀ b, graphEdge g a b → S b

/-- No member of `S` lies on a dependency cycle. -/
def NoCycOn (g : Graph) (S : String → Prop) : Prop :=
  ∀ a, S a → ¬ Relation.TransGen (graphEdge g) a a

/-- The invariant the DFS maintains about its black nodes. -/
def DfsInvOn (g : Graph) (S : String → Prop) : Prop :=
  ClosedOn g S ∧ NoCycOn g S

/-- How many universe nodes are still unvisited; the DFS recursion depth is
bounded by it. -/
def remainingCount (g : Graph) (visited : List String) : Nat :=
  ((nodeUniverse g).toFinset \ visited.toFinset).card

end Workflow

namespace Workflow

/-! ## Helper lemmas -/

theorem contains_iff_mem {l : List String} {a : String} : l.contains a = true ↔ a ∈ l := by
  simp

/-- Dropping leading whitespace does not change the token count (the counter
starts outside a word). -/
theorem countTokens_dropWhile (l : List Char) :
    countTokens false (l.dropWhile pyIsSpace) = countTokens false l := by
  induction l with
  | nil => rfl
  | cons c cs ih =>
    by_cases h : pyIsSpace c = true
    · rw [List.dropWhile_cons, if_pos h, ih]
      simp [countTokens, h]
    · rw [List.dropWhile_cons, if_neg h]

/-- A list of whitespace characters contains no token. -/
theorem countTokens_all_spaces (t : List Char) (ht : ∀ c ∈ t, pyIsSpace c = true) (b : Bool) :
    countTokens b t = 0 := by
  induction t generalizing b with
  | nil => rfl
  | cons c cs ih =>
    have hc : pyIsSpace c = true := ht c (List.mem_cons_self c cs)
    simp only [countTokens, hc, if_true]
    exact ih (fun d hd => ht d (List.mem_cons_of_mem c hd)) false

/-- Appending trailing whitespace does not change the token count. -/
theorem countTokens_append_spaces (l t : List Char) (ht : ∀ c ∈ t, pyIsSpace c = true) (b : Bool) :
    countTokens b (l ++ t) = countTokens b l := by
  induction l generalizing b with
  | nil => simpa using countTokens_all_spaces t ht b
  | cons c cs ih =>
    by_cases h : pyIsSpace c = true <;> simp [countTokens, h, ih]

/-- `str.strip()` does not change the token count. -/
theorem pySplitCount_pyStrip (s : String) : pySplitCount (pyStrip s) = pySplitCount s := by
  unfold pySplitCount pyStrip
  show countTokens false (((s.toList.dropWhile pyIsSpace).reverse.dropWhile pyIsSpace).reverse)
    = countTokens false s.toList
  set l1 := s.toList.dropWhile pyIsSpace with hl1
  have hdecomp : l1 = (l1.reverse.dropWhile pyIsSpace).reverse ++ (l1.reverse.takeWhile pyIsSpace).reverse := by
    have h := List.takeWhile_append_dropWhile (p := pyIsSpace) (l := l1.reverse)
    calc l1 = l1.reverse.reverse := (List.reverse_reverse l1).symm
    _ = (l1.reverse.takeWhile pyIsSpace ++ l1.reverse.dropWhile pyIsSpace).reverse := by rw [h]
    _ = _ := by rw [List.reverse_append]
  have hspaces : ∀ c ∈ (l1.reverse.takeWhile pyIsSpace).reverse, pyIsSpace c = true := by
    intro c hc
    exact List.mem_takeWhile_imp (List.mem_reverse.mp hc)
  calc countTokens false ((l1.reverse.dropWhile pyIsSpace).reverse)
      = countTokens false ((l1.reverse.dropWhile pyIsSpace).reverse ++ (l1.reverse.takeWhile pyIsSpace).reverse) :=
        (countTokens_append_spaces _ _ hspaces false).symm
    _ = countTokens false l1 := by rw [← hdecomp]
    _ = countTokens false s.toList := countTokens_dropWhile s.toList

/-- If stripping empties the string, it had no tokens. -/
theorem pySplitCount_eq_zero_of_strip_empty (s : String) (h : pyStrip s = "") :
    pySplitCount s = 0 := by
  have h0 : pySplitCount (pyStrip s) = 0 := by rw [h]; rfl
  rw [← pySplitCount_pyStrip s]
  exact h0

/-! ## Claim C9: `condition_min_output_words` -/

/-- C9 counterexample.  The claim states the predicate is true iff the key
exists, the value stringifies to a NON-EMPTY string, and that string has at
least `n` tokens (formalised by `spec_min_output_words`).  At `n = 0` with the
output `""` the code returns `true` while the claimed predicate is `false`;
with the output `None` and `n = 1` the code returns `false` while the claimed
predicate is `true` (`str(None) = "None"`, one token). -/
theorem c9_counterexample :
    condition_min_output_words "A" 0 emptyOutputCtx = true ∧
    spec_min_output_words "A" 0 emptyOutputCtx = false ∧
    condition_min_output_words "A" 1 noneOutputCtx = false ∧
    spec_min_output_words "A" 1 noneOutputCtx = true := by
  decide

/-- C9 amended: the predicate built by `condition_min_output_words step_name n`
is true iff `step_outputs` contains the key `step_name`, its value is not
`None`, and the value's stringification contains at least `n`
whitespace-separated tokens (an empty or all-whitespace stringification has
zero tokens; for `n = 0` the predicate is hence true whenever the key is
present with a non-`None` value). -/
theorem c9_amended (step_name : String) (min_words : Nat) (context : Ctx) :
    condition_min_output_words step_name min_words context = true ↔
      ∃ v, List.lookup step_name context.step_outputs = Option.some v ∧
        v ≠ PyObj.none ∧ min_words ≤ pySplitCount (pyStrOf v) := by
  unfold condition_min_output_words
  cases hlk : List.lookup step_name context.step_outputs with
  | none => simp
  | some v =>
    cases v with
    | none => simp
    | str s =>
      have hps : pyStrOf (PyObj.str s) = s := rfl
      simp only [Option.some.injEq, hps]
      constructor
      · intro h
        refine ⟨PyObj.str s, rfl, by simp, ?_⟩
        rw [hps]
        by_cases hs : pyStrip s = ""
        · simp only [hs, ne_eq, not_true_eq_false, if_false, decide_eq_true_eq] at h
          have := pySplitCount_eq_zero_of_strip_empty s hs
          omega
        · simp only [ne_eq, hs, not_false_eq_true, if_true, decide_eq_true_eq] at h
          calc min_words ≤ pySplitCount (pyStrip s) := h
            _ = pySplitCount s := pySplitCount_pyStrip s
      · rintro ⟨v, hv, -, hcount⟩
        cases hv
        rw [hps] at hcount
        by_cases hs : pyStrip s = ""
        · simp only [hs, ne_eq, not_true_eq_false, if_false, decide_eq_true_eq]
          have := pySplitCount_eq_zero_of_strip_empty s hs
          omega
        · simp only [ne_eq, hs, not_false_eq_true, if_true, decide_eq_true_eq]
          rw [pySplitCount_pyStrip s]
          exact hcount

/-! ## Claim C6: the default retryable-error classifier -/

/-- C6: the default classifier returns true iff no non-retryable substring
occurs in the lowercased message and some retryable substring does; in
particular it returns false whenever a non-retryable substring is present
(even alongside a retryable one) and false when neither list matches. -/
theorem c6_theorem (message : String) :
    default_is_retryable_error message = true ↔
      ((∀ p ∈ non_retryable_patterns, ¬ strContains (pyLower message) p = true) ∧
       ∃ p ∈ retryable_patterns, strContains (pyLower message) p = true) := by
  have key : default_is_retryable_error message =
      (!(non_retryable_patterns.any fun p => strContains (pyLower message) p)
        && (retryable_patterns.any fun p => strContains (pyLower message) p)) := by
    simp only [default_is_retryable_error]
    cases (non_retryable_patterns.any fun p => strContains (pyLower message) p) <;>
      cases (retryable_patterns.any fun p => strContains (pyLower message) p) <;> rfl
  rw [key]
  simp only [Bool.and_eq_true, Bool.not_eq_true', List.any_eq_false, List.any_eq_true]

/-! ## Claim C8: exponential backoff bounds -/

/-- C8: for every completed attempt `k` and every random draw `r ∈ [0, 1]`,
the slept backoff duration lies in
`[0.75 · min(0.1 · 2^k, 5), 1.25 · min(0.1 · 2^k, 5)]` (seconds; 100 ms = 1/10). -/
theorem c8_theorem (k : Nat) (r : ℚ) (h0 : 0 ≤ r) (h1 : r ≤ 1) :
    (3 / 4) * exponentialBackoffDelay k ≤ exponentialBackoffSleep k r ∧
    exponentialBackoffSleep k r ≤ (5 / 4) * exponentialBackoffDelay k := by
  have hd : 0 ≤ exponentialBackoffDelay k := by
    unfold exponentialBackoffDelay
    have h2 : (0 : ℚ) ≤ (1 / 10) * 2 ^ k := by positivity
    exact le_min h2 (by norm_num)
  unfold exponentialBackoffSleep
  constructor <;> nlinarith [hd, h0, h1]

/-- C8 witness at `k = 1`, `r = 1/2`. -/
theorem c8_witness :
    (0 : ℚ) ≤ 1 / 2 ∧ (1 / 2 : ℚ) ≤ 1 ∧
    ((3 / 4) * exponentialBackoffDelay 1 ≤ exponentialBackoffSleep 1 (1 / 2) ∧
     exponentialBackoffSleep 1 (1 / 2) ≤ (5 / 4) * exponentialBackoffDelay 1) :=
  ⟨by norm_num, by norm_num, c8_theorem 1 (1 / 2) (by norm_num) (by norm_num)⟩

/-! ## Claim C1: final status under a failed step -/

/-- C1 evaluation at the failing input.  The single step `"A"` settles with a
FAILED `StepResult`, yet `execute_workflow` returns normally (no aggregate
error: the result is `ok`, no error is recorded in metadata) and the final
workflow status is COMPLETED, not FAILED.  The coroutine
`_execute_step_with_tracking` returns `None` rather than raising, so
`failed_steps` stays empty and the failed step is added to `completed_steps`.
The claim (and the repository's own `test_step_failure`) expects status FAILED
and a raised "Failed steps" aggregate error. -/
theorem c1_evaluation :
    (List.lookup "A" c1Outcome.state.step_results).map StepResult.status =
      Option.some StepStatus.FAILED ∧
    c1Outcome.state.status = WorkflowStatus.COMPLETED ∧
    c1Outcome.result = Except.ok c1Outcome.state ∧
    c1Outcome.state.metadata_error = Option.none := by
  refine ⟨?_, ?_, ?_, ?_⟩ <;> rfl

/-! ## Claim C2: dependents of failed steps -/

/-- C2 evaluation at the failing input.  `"C"` depends on `"A"`, which settles
FAILED on attempt 1; because `"A"` is nevertheless added to `completed_steps`,
`"C"` becomes ready in the next wave, is dispatched, has its `execute`
invoked, receives a `step_results` entry with status COMPLETED, and the
workflow finishes COMPLETED — no step is reported unreachable.  The claim (and
the repository's own `test_step_failure`, which asserts `"step3" not in
state.step_results`) expects `"C"` to stay pending and be absent. -/
theorem c2_evaluation :
    (List.lookup "A" c2Outcome.state.step_results).map StepResult.status =
      Option.some StepStatus.FAILED ∧
    (List.lookup "C" c2Outcome.state.step_results).map StepResult.status =
      Option.some StepStatus.COMPLETED ∧
    "C" ∈ c2Outcome.executed ∧
    (List.lookup "C" c2Outcome.dispatches).isSome = true ∧
    c2Outcome.state.status = WorkflowStatus.COMPLETED ∧
    c2Outcome.result = Except.ok c2Outcome.state := by
  refine ⟨?_, ?_, ?_, ?_, ?_, ?_⟩
  · rfl
  · rfl
  · decide
  · rfl
  · rfl
  · rfl

/-! ## Claim C3: `step_outputs` contents at dispatch time -/

/-- C3 evaluation at the failing input.  `"A"` completes with output `"x"`,
`"B"` is SKIPPED (its `condition_min_output_words "A" 10` is false), and when
`"C"` is dispatched its context's `step_outputs` nevertheless contains the key
`"B"` (mapped to `None`), because skipped steps are added to `completed_steps`
and the dict comprehension's `if name in state.step_results` filter does not
exclude them; consequently `get_dependency_output` on the SKIPPED `"B"`
returns `ok None` instead of failing with MISSING_DEPENDENCY. -/
theorem c3_evaluation :
    (List.lookup "B" c3Outcome.state.step_results).map StepResult.status =
      Option.some StepStatus.SKIPPED ∧
    (List.lookup "C" c3Outcome.dispatches).map (fun c => List.lookup "B" c.step_outputs) =
      Option.some (Option.some PyObj.none) ∧
    (List.lookup "C" c3Outcome.dispatches).map (fun c => get_dependency_output c "B") =
      Option.some (Except.ok PyObj.none) := by
  refine ⟨?_, ?_, ?_⟩ <;> rfl

/-! ## Claim C4: the skip path -/

/-- C4 counterexample.  For a concretely skipped step the recorded
`StepResult` has `attempts = 1` (the dataclass default — the skip path of
`_execute_step_with_tracking` does not set `attempts`), not `attempts = 0` as
the claim states. -/
theorem c4_counterexample :
    is_condition_met alwaysSkippedStep {} = false ∧
    (execute_step_with_tracking "w" alwaysSkippedStep {}).recorded.status = StepStatus.SKIPPED ∧
    ¬ (execute_step_with_tracking "w" alwaysSkippedStep {}).recorded.attempts = 0 := by
  refine ⟨rfl, rfl, ?_⟩
  intro h
  exact Nat.one_ne_zero h

/-- C4 amended: for every dispatched step whose condition evaluates to false
on its context, the step settles without invoking `execute`; its recorded
`StepResult` has status SKIPPED, output absent, duration 0, no error — and
`attempts = 1` (the `StepResult` dataclass default), not 0; exactly one
`step_complete` progress event with status SKIPPED is emitted and no
`step_start` event. -/
theorem c4_amended (wid : String) (step : StepDef) (context : Ctx)
    (h : is_condition_met step context = false) :
    execute_step_with_tracking wid step context =
      { recorded := { status := StepStatus.SKIPPED, output := PyObj.none, error := Option.none,
                      duration_ms := 0, attempts := 1, started_at := Option.none,
                      completed_at := Option.none },
        events := [{ workflow_id := wid, event_type := "step_complete",
                     step_name := step.name, step_status := StepStatus.SKIPPED }],
        invoked_execute := false, retries := [], raised := Option.none } := by
  unfold execute_step_with_tracking should_execute_step
  rw [h]
  rfl

/-! ## Claim C7: attempt bounds and retry conditions -/

/-- Loop invariant of `_execute_step`'s attempt loop: the final attempt count
stays within `[attempts, max_retries]`, strictly increases when at least one
iteration remains, and every retry appended to the log satisfies `RetryOk`. -/
theorem execStepLoop_spec (step : StepDef) (context : Ctx) :
    ∀ remaining attempts last retries, attempts + remaining = step.max_retries →
      (execStepLoop step context remaining attempts last retries).1.attempts ≤ step.max_retries ∧
      attempts ≤ (execStepLoop step context remaining attempts last retries).1.attempts ∧
      (0 < remaining → attempts < (execStepLoop step context remaining attempts last retries).1.attempts) ∧
      ∀ k ∈ (execStepLoop step context remaining attempts last retries).2,
        k ∈ retries ∨ RetryOk step context k := by
  intro remaining
  induction remaining with
  | zero =>
    intro attempts last retries hinv
    simp only [execStepLoop, mkFailedResult]
    exact ⟨by omega, le_refl _, by omega, fun k hk => Or.inl hk⟩
  | succ rem ih =>
    intro attempts last retries hinv
    simp only [execStepLoop]
    cases hrun : step.run context (attempts + 1) with
    | success out =>
      simp only [mkCompletedResult]
      refine ⟨by omega, by omega, fun _ => by omega, fun k hk => Or.inl hk⟩
    | timeout =>
      by_cases hrem : 0 < rem
      · simp only [if_pos hrem]
        have h := ih (attempts + 1) (Option.some (timeoutMessage step)) (retries ++ [attempts + 1])
          (by omega)
        refine ⟨h.1, by omega, fun _ => by omega, ?_⟩
        intro k hk
        rcases h.2.2.2 k hk with hmem | hok
        · rcases List.mem_append.mp hmem with hmem' | hmem'
          · exact Or.inl hmem'
          · have hka : k = attempts + 1 := List.mem_singleton.mp hmem'
            subst hka
            exact Or.inr ⟨by omega, by omega, Or.inl hrun⟩
        · exact Or.inr hok
      · simp only [if_neg hrem, mkFailedResult]
        refine ⟨by omega, by omega, fun _ => by omega, fun k hk => Or.inl hk⟩
    | failure msg =>
      dsimp only
      by_cases hcl : (step.is_retryable_error msg && decide (0 < rem)) = true
      · rw [if_pos hcl]
        have hrem : 0 < rem := by
          have := (Bool.and_eq_true _ _).mp hcl
          exact of_decide_eq_true this.2
        have hret : step.is_retryable_error msg = true := ((Bool.and_eq_true _ _).mp hcl).1
        have h := ih (attempts + 1) (Option.some msg) (retries ++ [attempts + 1]) (by omega)
        refine ⟨h.1, by omega, fun _ => by omega, ?_⟩
        intro k hk
        rcases h.2.2.2 k hk with hmem | hok
        · rcases List.mem_append.mp hmem with hmem' | hmem'
          · exact Or.inl hmem'
          · have hka : k = attempts + 1 := List.mem_singleton.mp hmem'
            subst hka
            exact Or.inr ⟨by omega, by omega, Or.inr ⟨msg, hrun, hret⟩⟩
        · exact Or.inr hok
      · rw [if_neg hcl]
        simp only [mkFailedResult]
        refine ⟨by omega, by omega, fun _ => by omega, fun k hk => Or.inl hk⟩

/-- C7: for every step with `max_retries ≥ 1` whose dispatch is not skipped,
the recorded `StepResult` satisfies `1 ≤ attempts ≤ max_retries`, and a
backoff-plus-further-attempt is launched after attempt `k` only when
`k < max_retries` and attempt `k` was a timeout or an error the step's
classifier deems retryable. -/
theorem c7_theorem (wid : String) (step : StepDef) (context : Ctx)
    (hmax : 1 ≤ step.max_retries) (hcond : is_condition_met step context = true) :
    (1 ≤ (execute_step_with_tracking wid step context).recorded.attempts ∧
     (execute_step_with_tracking wid step context).recorded.attempts ≤ step.max_retries) ∧
    ∀ k ∈ (execute_step_with_tracking wid step context).retries,
      k < step.max_retries ∧
      (step.run context k = AttemptOutcome.timeout ∨
       ∃ m, step.run context k = AttemptOutcome.failure m ∧ step.is_retryable_error m = true) := by
  have h := execStepLoop_spec step context step.max_retries 0 Option.none [] (by omega)
  have htrack : execute_step_with_tracking wid step context =
      { recorded := (execute_step step context).1,
        events := [{ workflow_id := wid, event_type := "step_start",
                     step_name := step.name, step_status := StepStatus.RUNNING },
                   { workflow_id := wid, event_type := "step_complete",
                     step_name := step.name, step_status := (execute_step step context).1.status }],
        invoked_execute := true, retries := (execute_step step context).2,
        raised := Option.none } := by
    unfold execute_step_with_tracking should_execute_step
    rw [hcond]
    rfl
  rw [htrack]
  unfold execute_step at h ⊢
  refine ⟨⟨?_, h.1⟩, ?_⟩
  · exact h.2.2.1 (by omega)
  · intro k hk
    rcases h.2.2.2 k hk with hmem | hok
    · cases hmem
    · exact ⟨hok.1, hok.2.2⟩

/-- C7 witness: the retrying step (`max_retries = 2`, attempt 1 fails with a
retryable "timeout" error, attempt 2 succeeds). -/
theorem c7_witness :
    1 ≤ retryingStep.max_retries ∧ is_condition_met retryingStep {} = true ∧
    ((1 ≤ (execute_step_with_tracking "w" retryingStep {}).recorded.attempts ∧
      (execute_step_with_tracking "w" retryingStep {}).recorded.attempts ≤ retryingStep.max_retries) ∧
     ∀ k ∈ (execute_step_with_tracking "w" retryingStep {}).retries,
       k < retryingStep.max_retries ∧
       (retryingStep.run {} k = AttemptOutcome.timeout ∨
        ∃ m, retryingStep.run {} k = AttemptOutcome.failure m ∧
          retryingStep.is_retryable_error m = true)) :=
  ⟨by decide, rfl, c7_theorem "w" retryingStep {} (by decide) rfl⟩

/-! ## Validation-failure lemmas (shared by claims C5 and C10) -/

/-- Looking up `k` after the in-place overwrite performed when the key is
already present. -/
theorem lookup_map_replace {α : Type} (k : String) (v : α) :
    ∀ d : List (String × α), (List.lookup k d).isSome = true →
      List.lookup k (d.map fun p => if p.1 == k then (k, v) else p) = Option.some v := by
  intro d
  induction d with
  | nil => intro h; simp [List.lookup] at h
  | cons p rest ih =>
    rcases p with ⟨a, b⟩
    intro h
    by_cases hk : a = k
    · subst hk
      simp only [List.map_cons]
      rw [if_pos (beq_self_eq_true a)]
      simp [List.lookup]
    · have h1 : (a == k) = false := beq_eq_false_iff_ne.mpr hk
      have h2 : (k == a) = false := beq_eq_false_iff_ne.mpr (Ne.symm hk)
      simp only [List.map_cons]
      rw [if_neg (by simp [h1])]
      simp only [List.lookup, h2]
      apply ih
      simpa [List.lookup, h2] using h

/-- Looking up `k` after appending the fresh entry `(k, v)`. -/
theorem lookup_append_fresh {α : Type} (k : String) (v : α) :
    ∀ d : List (String × α), (List.lookup k d).isSome = false →
      List.lookup k (d ++ [(k, v)]) = Option.some v := by
  intro d
  induction d with
  | nil => intro _; simp [List.lookup]
  | cons p rest ih =>
    rcases p with ⟨a, b⟩
    intro h
    by_cases hk : k = a
    · exfalso
      subst hk
      simp [List.lookup] at h
    · have h2 : (k == a) = false := beq_eq_false_iff_ne.mpr hk
      simp only [List.cons_append, List.lookup, h2]
      apply ih
      simpa [List.lookup, h2] using h

/-- After a Python dict assignment the key maps to the assigned value. -/
theorem dictInsert_lookup_self {α : Type} (d : List (String × α)) (k : String) (v : α) :
    List.lookup k (dictInsert d k v) = Option.some v := by
  unfold dictInsert
  by_cases h : (List.lookup k d).isSome
  · rw [if_pos h]
    exact lookup_map_replace k v d h
  · rw [if_neg h]
    exact lookup_append_fresh k v d (Bool.eq_false_iff.mpr h)

/-- If some step declares a dependency outside `names`, the build loop raises
the unknown-dependency `ValueError`, whose message names an offending step and
its missing dependency. -/
theorem buildGraphLoop_error (names : List String) :
    ∀ (steps : List StepDef) (acc : Graph),
      (∃ s ∈ steps, ∃ d ∈ s.depends_on, ¬ d ∈ names) →
      ∃ s d, buildGraphLoop names steps acc = Except.error (unknownDepMessage s.name d) ∧
        s ∈ steps ∧ d ∈ s.depends_on ∧ ¬ d ∈ names := by
  intro steps
  induction steps with
  | nil => rintro acc ⟨s, hs, -⟩; cases hs
  | cons s rest ih =>
    rintro acc hbad
    cases hfind : firstMissingDep s.depends_on names with
    | some d =>
      refine ⟨s, d, ?_, List.mem_cons_self s rest, ?_, ?_⟩
      · simp [buildGraphLoop, hfind]
      · exact List.mem_of_find?_eq_some hfind
      · have hp := List.find?_some hfind
        simp only [Bool.not_eq_true'] at hp
        intro hmem
        rw [contains_iff_mem.mpr hmem] at hp
        cases hp
    | none =>
      have hclean : ∀ d ∈ s.depends_on, d ∈ names := by
        intro d hd
        have hnot := List.find?_eq_none.mp hfind d hd
        rw [Bool.not_eq_true'] at hnot
        exact contains_iff_mem.mp (Bool.ne_false_iff.mp hnot)
      have hbad' : ∃ s' ∈ rest, ∃ d ∈ s'.depends_on, ¬ d ∈ names := by
        rcases hbad with ⟨s', hs', d, hd, hdn⟩
        rcases List.mem_cons.mp hs' with rfl | hs''
        · exact absurd (hclean d hd) hdn
        · exact ⟨s', hs'', d, hd, hdn⟩
      rcases ih (dictInsert acc s.name s.depends_on) hbad' with ⟨s', d', heq, hs', hd', hdn'⟩
      refine ⟨s', d', ?_, List.mem_cons_of_mem s hs', hd', hdn'⟩
      simp [buildGraphLoop, hfind, heq]

/-- Lift of `buildGraphLoop_error` to `_build_dependency_graph`. -/
theorem build_dependency_graph_error_of_missing (steps : List StepDef)
    (hbad : ∃ s ∈ steps, ∃ d ∈ s.depends_on, ¬ d ∈ stepNames steps) :
    ∃ s d, build_dependency_graph steps = Except.error (unknownDepMessage s.name d) ∧
      s ∈ steps ∧ d ∈ s.depends_on ∧ ¬ d ∈ stepNames steps := by
  rcases buildGraphLoop_error (stepNames steps) steps [] hbad with ⟨s, d, heq, hs, hd, hdn⟩
  exact ⟨s, d, by simp [build_dependency_graph, heq], hs, hd, hdn⟩

/-- When the DAG validator raises, `execute_workflow` re-raises its message,
records the state as FAILED with the validation error in metadata and an empty
`step_results`, persists exactly that state, and never dispatches or executes
a step. -/
theorem execute_workflow_validation_error (wid : String) (steps : List StepDef)
    (input : List (String × PyObj)) (store : List (String × WorkflowState))
    (msg : String) (h : build_dependency_graph steps = Except.error msg) :
    execute_workflow wid steps input store =
      { result := Except.error msg,
        state := { workflow_id := wid, status := WorkflowStatus.FAILED, step_results := [],
                   input_data := input, metadata_error := Option.some msg },
        events := [], dispatches := [], executed := [],
        store := dictInsert store wid
          { workflow_id := wid, status := WorkflowStatus.FAILED, step_results := [],
            input_data := input, metadata_error := Option.some msg } } := by
  unfold execute_workflow
  rw [h]

/-! ## Claim C10: resume with a dependency on an already-completed step -/

/-- C10: resuming a stored non-COMPLETED workflow whose remaining steps
include one depending on a step filtered out because it already COMPLETED
makes the re-execution fail the unknown-dependency validation before any step
executes, and the freshly persisted state for the workflow id carries none of
the prior run's step results. -/
theorem c10_theorem (wid : String) (steps : List StepDef)
    (store : List (String × WorkflowState)) (st : WorkflowState)
    (hload : List.lookup wid store = Option.some st)
    (hstatus : st.status ≠ WorkflowStatus.COMPLETED)
    (hdep : ∃ c ∈ steps, (get_completed_steps st).contains c.name = false ∧
            ∃ p ∈ c.depends_on, p ∈ get_completed_steps st) :
    ∃ out msg, resume_workflow wid steps store = Except.ok out ∧
      out.result = Except.error msg ∧
      (∃ s ∈ steps.filter (fun s => !((get_completed_steps st).contains s.name)),
        ∃ d ∈ s.depends_on,
          ¬ d ∈ stepNames (steps.filter (fun s => !((get_completed_steps st).contains s.name))) ∧
          msg = unknownDepMessage s.name d) ∧
      out.executed = [] ∧ out.dispatches = [] ∧ out.events = [] ∧
      out.state.step_results = [] ∧
      out.state.status = WorkflowStatus.FAILED ∧
      out.state.metadata_error = Option.some msg ∧
      List.lookup wid out.store = Option.some out.state := by
  rcases hdep with ⟨c, hc, hcname, p, hp, hpcomp⟩
  set remaining := steps.filter (fun s => !((get_completed_steps st).contains s.name)) with hrem
  have hcrem : c ∈ remaining := by
    rw [hrem]
    exact List.mem_filter.mpr ⟨hc, by rw [hcname]; rfl⟩
  have hpnot : ¬ p ∈ stepNames remaining := by
    intro hmem
    rcases List.mem_map.mp hmem with ⟨s', hs', hname⟩
    have := (List.mem_filter.mp hs').2
    rw [hname] at this
    rw [contains_iff_mem.mpr hpcomp] at this
    cases this
  have hbad : ∃ s ∈ remaining, ∃ d ∈ s.depends_on, ¬ d ∈ stepNames remaining :=
    ⟨c, hcrem, p, hp, hpnot⟩
  rcases build_dependency_graph_error_of_missing remaining hbad with ⟨s, d, herr, hs, hd, hdn⟩
  have hexec := execute_workflow_validation_error wid remaining st.input_data store
    (unknownDepMessage s.name d) herr
  have hner : remaining.isEmpty = false := by
    cases hre : remaining with
    | nil => rw [hre] at hcrem; cases hcrem
    | cons a l => rfl
  have hbeq : (st.status == WorkflowStatus.COMPLETED) = false :=
    beq_eq_false_iff_ne.mpr hstatus
  refine ⟨execute_workflow wid remaining st.input_data store,
    unknownDepMessage s.name d, ?_, ?_, ⟨s, hs, d, hd, hdn, rfl⟩, ?_, ?_, ?_, ?_, ?_, ?_, ?_⟩
  · unfold resume_workflow
    rw [hload]
    simp only [hbeq, Bool.false_eq_true, if_false, ← hrem, hner]
  · rw [hexec]
  · rw [hexec]
  · rw [hexec]
  · rw [hexec]
  · rw [hexec]
  · rw [hexec]
  · rw [hexec]
  · rw [hexec]
    exact dictInsert_lookup_self store wid _

/-- C10 witness: the concrete resume scenario (prior state has `"A"`
COMPLETED and `"B"` FAILED; `"B"` depends on the excluded `"A"`). -/
theorem c10_witness :
    List.lookup "wf10" [("wf10", priorFailedState)] = Option.some priorFailedState ∧
    priorFailedState.status ≠ WorkflowStatus.COMPLETED ∧
    (∃ c ∈ [resumeStepA, resumeStepB],
      (get_completed_steps priorFailedState).contains c.name = false ∧
      ∃ p ∈ c.depends_on, p ∈ get_completed_steps priorFailedState) ∧
    (∃ out msg, resume_workflow "wf10" [resumeStepA, resumeStepB] [("wf10", priorFailedState)] =
        Except.ok out ∧
      out.result = Except.error msg ∧
      (∃ s ∈ List.filter (fun s => !((get_completed_steps priorFailedState).contains s.name))
          [resumeStepA, resumeStepB],
        ∃ d ∈ s.depends_on,
          ¬ d ∈ stepNames (List.filter
            (fun s => !((get_completed_steps priorFailedState).contains s.name))
            [resumeStepA, resumeStepB]) ∧
          msg = unknownDepMessage s.name d) ∧
      out.executed = [] ∧ out.dispatches = [] ∧ out.events = [] ∧
      out.state.step_results = [] ∧
      out.state.status = WorkflowStatus.FAILED ∧
      out.state.metadata_error = Option.some msg ∧
      List.lookup "wf10" out.store = Option.some out.state) := by
  refine ⟨rfl, by decide, ?_, ?_⟩
  · refine ⟨resumeStepB, by simp [List.mem_cons], ?_, "A", ?_, ?_⟩
    · rfl
    · simp [resumeStepB]
    · decide
  · exact c10_theorem "wf10" [resumeStepA, resumeStepB] [("wf10", priorFailedState)]
      priorFailedState rfl (by decide)
      ⟨resumeStepB, by simp [List.mem_cons], rfl, "A", by simp [resumeStepB], by decide⟩

/-- C4 witness: the amended statement applied to the concrete
always-skipped step. -/
theorem c4_witness :
    is_condition_met alwaysSkippedStep {} = false ∧
    execute_step_with_tracking "w" alwaysSkippedStep {} =
      { recorded := { status := StepStatus.SKIPPED, output := PyObj.none, error := Option.none,
                      duration_ms := 0, attempts := 1, started_at := Option.none,
                      completed_at := Option.none },
        events := [{ workflow_id := "w", event_type := "step_complete",
                     step_name := alwaysSkippedStep.name, step_status := StepStatus.SKIPPED }],
        invoked_execute := false, retries := [], raised := Option.none } :=
  ⟨rfl, c4_amended "w" alwaysSkippedStep {} rfl⟩

end Workflow

namespace Workflow

/-! ## Cycle-detector correctness (claim C5) -/

theorem lookup_some_mem_pair {α : Type} :
    ∀ (d : List (String × α)) (k : String) (v : α),
      List.lookup k d = Option.some v → (k, v) ∈ d := by
  intro d
  induction d with
  | nil => intro k v h; cases h
  | cons p rest ih =>
    rcases p with ⟨a, b⟩
    intro k v h
    by_cases hk : k = a
    · subst hk
      simp only [List.lookup, beq_self_eq_true] at h
      cases h
      exact List.mem_cons_self _ _
    · have h2 : (k == a) = false := beq_eq_false_iff_ne.mpr hk
      simp only [List.lookup, h2] at h
      exact List.mem_cons_of_mem _ (ih k v h)

theorem lookup_some_mem_keys {α : Type} (d : List (String × α)) (k : String) (v : α)
    (h : List.lookup k d = Option.some v) : k ∈ d.map (fun p => p.1) :=
  List.mem_map.mpr ⟨(k, v), lookup_some_mem_pair d k v h, rfl⟩

/-- An edge source is a graph key and an edge target is in the node universe. -/
theorem graphEdge_mem (g : Graph) (a b : String) (h : graphEdge g a b) :
    a ∈ g.map (fun p => p.1) ∧ b ∈ nodeUniverse g := by
  unfold graphEdge graphGet at h
  cases hl : List.lookup a g with
  | none => rw [hl] at h; cases h
  | some deps =>
    rw [hl] at h
    refine ⟨lookup_some_mem_keys g a deps hl, ?_⟩
    unfold nodeUniverse
    refine List.mem_append.mpr (Or.inr ?_)
    exact List.mem_flatten.mpr ⟨deps, List.mem_map.mpr ⟨(a, deps), lookup_some_mem_pair g a deps hl, rfl⟩, h⟩

theorem keys_mem_universe (g : Graph) (a : String) (h : a ∈ g.map (fun p => p.1)) :
    a ∈ nodeUniverse g :=
  List.mem_append.mpr (Or.inl h)

theorem erase_append_singleton (l : List String) (x : String) (h : ¬ x ∈ l) :
    (l ++ [x]).erase x = l := by
  rw [List.erase_append_right _ h, List.erase_cons_head, List.append_nil]

/-- Shape of the neighbour loop: visited only grows, and a `False` return pops
exactly the node from the recursion stack. -/
theorem cycleNeighbors_shape
    (f : String → List String → List String → Option (Bool × List String × List String))
    (Hf : ∀ nb vis rec b v' r', ¬ nb ∈ vis → (∀ x ∈ rec, x ∈ vis) →
      f nb vis rec = Option.some (b, v', r') →
      (∀ x ∈ vis, x ∈ v') ∧ nb ∈ v' ∧ (b = false → r' = rec))
    (node : String) :
    ∀ (lst visC recC : List String) (b : Bool) (v' r' : List String),
      node ∈ visC → node ∈ recC → (∀ x ∈ recC, x ∈ visC) →
      cycleNeighbors f node lst visC recC = Option.some (b, v', r') →
      (∀ x ∈ visC, x ∈ v') ∧ (b = false → r' = recC.erase node) := by
  intro lst
  induction lst with
  | nil =>
    intro visC recC b v' r' hnv hnr hsub heq
    simp only [cycleNeighbors, Option.some.injEq, Prod.mk.injEq] at heq
    obtain ⟨hb, hv, hr⟩ := heq
    refine ⟨fun x hx => ?_, fun _ => hr.symm⟩
    rw [← hv]; exact hx
  | cons nb rest ih =>
    intro visC recC b v' r' hnv hnr hsub heq
    simp only [cycleNeighbors] at heq
    by_cases h1 : nb ∈ visC
    · rw [if_pos h1] at heq
      by_cases h2 : nb ∈ recC
      · rw [if_pos h2] at heq
        simp only [Option.some.injEq, Prod.mk.injEq] at heq
        obtain ⟨hb, hv, hr⟩ := heq
        refine ⟨fun x hx => ?_, fun hbf => ?_⟩
        · rw [← hv]; exact hx
        · rw [← hb] at hbf; cases hbf
      · rw [if_neg h2] at heq
        exact ih visC recC b v' r' hnv hnr hsub heq
    · rw [if_neg h1] at heq
      cases hf : f nb visC recC with
      | none => rw [hf] at heq; cases heq
      | some t =>
        obtain ⟨b₂, v₂, r₂⟩ := t
        rw [hf] at heq
        cases b₂ with
        | true =>
          simp only [Option.some.injEq, Prod.mk.injEq] at heq
          obtain ⟨hb, hv, hr⟩ := heq
          have hsh := Hf nb visC recC true v₂ r₂ h1 hsub hf
          refine ⟨fun x hx => ?_, fun hbf => ?_⟩
          · rw [← hv]; exact hsh.1 x hx
          · rw [← hb] at hbf; cases hbf
        | false =>
          dsimp only at heq
          have hsh := Hf nb visC recC false v₂ r₂ h1 hsub hf
          have hrec : r₂ = recC := hsh.2.2 rfl
          rw [hrec] at heq
          have hrest := ih v₂ recC b v' r' (hsh.1 node hnv) hnr
            (fun x hx => hsh.1 x (hsub x hx)) heq
          exact ⟨fun x hx => hrest.1 x (hsh.1 x hx), hrest.2⟩

/-- Shape of the rooted DFS: visited grows and contains the root, and a
`False` return restores the recursion stack. -/
theorem hasCycleFrom_shape (g : Graph) :
    ∀ (fuel : Nat) (node : String) (vis rec : List String) (b : Bool) (v' r' : List String),
      ¬ node ∈ vis → (∀ x ∈ rec, x ∈ vis) →
      hasCycleFrom g fuel node vis rec = Option.some (b, v', r') →
      (∀ x ∈ vis, x ∈ v') ∧ node ∈ v' ∧ (b = false → r' = rec) := by
  intro fuel
  induction fuel with
  | zero =>
    intro node vis rec b v' r' _ _ heq
    simp [hasCycleFrom] at heq
  | succ m ih =>
    intro node vis rec b v' r' hnv hsub heq
    simp only [hasCycleFrom] at heq
    have hnrec : ¬ node ∈ rec := fun h => hnv (hsub node h)
    have hkey := cycleNeighbors_shape (fun nb v r => hasCycleFrom g m nb v r)
      (fun nb vis' rec' b' v'' r'' h1 h2 h3 => ih nb vis' rec' b' v'' r'' h1 h2 h3) node
      (graphGet g node) (vis ++ [node]) (rec ++ [node]) b v' r'
      (List.mem_append.mpr (Or.inr (List.mem_singleton.mpr rfl)))
      (List.mem_append.mpr (Or.inr (List.mem_singleton.mpr rfl)))
      (fun x hx => by
        rcases List.mem_append.mp hx with h | h
        · exact List.mem_append.mpr (Or.inl (hsub x h))
        · exact List.mem_append.mpr (Or.inr h))
      heq
    refine ⟨fun x hx => hkey.1 x (List.mem_append.mpr (Or.inl hx)), ?_, ?_⟩
    · exact hkey.1 node (List.mem_append.mpr (Or.inr (List.mem_singleton.mpr rfl)))
    · intro hb
      rw [hkey.2 hb, erase_append_singleton rec node hnrec]

end Workflow

namespace Workflow

theorem remainingCount_mono (g : Graph) (vis vis' : List String)
    (h : ∀ x ∈ vis, x ∈ vis') : remainingCount g vis' ≤ remainingCount g vis := by
  apply Finset.card_le_card
  apply Finset.sdiff_subset_sdiff (le_refl _)
  intro x hx
  rw [List.mem_toFinset] at hx ⊢
  exact h x hx

theorem remainingCount_strict (g : Graph) (vis : List String) (node : String)
    (hu : node ∈ nodeUniverse g) (hv : ¬ node ∈ vis) :
    remainingCount g (vis ++ [node]) < remainingCount g vis := by
  apply Finset.card_lt_card
  rw [Finset.ssubset_iff_of_subset]
  · refine ⟨node, ?_, ?_⟩
    · rw [Finset.mem_sdiff, List.mem_toFinset, List.mem_toFinset]
      exact ⟨hu, hv⟩
    · rw [Finset.mem_sdiff, List.mem_toFinset, List.mem_toFinset]
      rintro ⟨-, hno⟩
      exact hno (List.mem_append.mpr (Or.inr (List.mem_singleton.mpr rfl)))
  · apply Finset.sdiff_subset_sdiff (le_refl _)
    intro x hx
    rw [List.mem_toFinset] at hx ⊢
    exact List.mem_append.mpr (Or.inl hx)

theorem remainingCount_le_length (g : Graph) (vis : List String) :
    remainingCount g vis ≤ (nodeUniverse g).length :=
  le_trans (Finset.card_le_card Finset.sdiff_subset) (List.toFinset_card_le _)

/-- The neighbour loop cannot exhaust fuel when the recursive calls cannot. -/
theorem cycleNeighbors_fuel (g : Graph) (B : Nat)
    (f : String → List String → List String → Option (Bool × List String × List String))
    (HfS : ∀ nb vis rec b v' r', ¬ nb ∈ vis → (∀ x ∈ rec, x ∈ vis) →
      f nb vis rec = Option.some (b, v', r') →
      (∀ x ∈ vis, x ∈ v') ∧ nb ∈ v' ∧ (b = false → r' = rec))
    (HfF : ∀ nb vis rec, nb ∈ nodeUniverse g → ¬ nb ∈ vis → (∀ x ∈ rec, x ∈ vis) →
      remainingCount g vis < B → f nb vis rec ≠ Option.none)
    (node : String) :
    ∀ (lst visC recC : List String),
      (∀ x ∈ lst, x ∈ nodeUniverse g) → (∀ x ∈ recC, x ∈ visC) → node ∈ visC →
      remainingCount g visC < B →
      cycleNeighbors f node lst visC recC ≠ Option.none := by
  intro lst
  induction lst with
  | nil =>
    intro visC recC _ _ _ _ heq
    simp [cycleNeighbors] at heq
  | cons nb rest ih =>
    intro visC recC hlst hsub hnode hcount heq
    simp only [cycleNeighbors] at heq
    by_cases h1 : nb ∈ visC
    · rw [if_pos h1] at heq
      by_cases h2 : nb ∈ recC
      · rw [if_pos h2] at heq; cases heq
      · rw [if_neg h2] at heq
        exact ih visC recC (fun x hx => hlst x (List.mem_cons_of_mem nb hx)) hsub hnode hcount heq
    · rw [if_neg h1] at heq
      cases hf : f nb visC recC with
      | none =>
        exact HfF nb visC recC (hlst nb (List.mem_cons_self nb rest)) h1 hsub hcount hf
      | some t =>
        obtain ⟨b₂, v₂, r₂⟩ := t
        rw [hf] at heq
        cases b₂ with
        | true => dsimp only at heq; cases heq
        | false =>
          dsimp only at heq
          have hsh := HfS nb visC recC false v₂ r₂ h1 hsub hf
          have hrec : r₂ = recC := hsh.2.2 rfl
          rw [hrec] at heq
          have hmono : remainingCount g v₂ ≤ remainingCount g visC :=
            remainingCount_mono g visC v₂ hsh.1
          exact ih v₂ recC (fun x hx => hlst x (List.mem_cons_of_mem nb hx))
            (fun x hx => hsh.1 x (hsub x hx)) (hsh.1 node hnode)
            (lt_of_le_of_lt hmono hcount) heq

/-- The rooted DFS cannot exhaust its fuel: every recursive call is on an
unvisited universe node, and each call inserts its node into `visited`. -/
theorem hasCycleFrom_fuel (g : Graph) :
    ∀ (fuel : Nat) (node : String) (vis rec : List String),
      node ∈ nodeUniverse g → ¬ node ∈ vis → (∀ x ∈ rec, x ∈ vis) →
      remainingCount g vis < fuel →
      hasCycleFrom g fuel node vis rec ≠ Option.none := by
  intro fuel
  induction fuel with
  | zero =>
    intro node vis rec _ _ _ hcount
    cases hcount
  | succ m ih =>
    intro node vis rec hu hv hsub hcount
    simp only [hasCycleFrom]
    have hstrict : remainingCount g (vis ++ [node]) < remainingCount g vis :=
      remainingCount_strict g vis node hu hv
    apply cycleNeighbors_fuel g m (fun nb v r => hasCycleFrom g m nb v r)
      (fun nb vis' rec' b' v'' r'' h1 h2 h3 => hasCycleFrom_shape g m nb vis' rec' b' v'' r'' h1 h2 h3)
      (fun nb vis' rec' h1 h2 h3 h4 => ih nb vis' rec' h1 h2 h3 h4)
      node (graphGet g node) (vis ++ [node]) (rec ++ [node])
    · intro x hx
      exact (graphEdge_mem g node x hx).2
    · intro x hx
      rcases List.mem_append.mp hx with h | h
      · exact List.mem_append.mpr (Or.inl (hsub x h))
      · exact List.mem_append.mpr (Or.inr h)
    · exact List.mem_append.mpr (Or.inr (List.mem_singleton.mpr rfl))
    · omega

end Workflow

namespace Workflow

/-- A closed set absorbs every dependency path out of it. -/
theorem reach_closed (g : Graph) (S : String → Prop) (hS : ClosedOn g S)
    {a c : String} (ha : S a) (h : Relation.ReflTransGen (graphEdge g) a c) : S c := by
  induction h with
  | refl => exact ha
  | tail h1 e ihc => exact hS _ ihc _ e

theorem dfsInvOn_congr (g : Graph) (S T : String → Prop) (h : ∀ x, S x ↔ T x)
    (hS : DfsInvOn g S) : DfsInvOn g T := by
  constructor
  · intro a ha b hb
    exact (h b).mp (hS.1 a ((h a).mpr ha) b hb)
  · intro a ha
    exact hS.2 a ((h a).mpr ha)

/-- Pushing an unvisited node onto both `visited` and the recursion stack
leaves the black set unchanged. -/
theorem black_push (vis rec : List String) (node : String) (hv : ¬ node ∈ vis) :
    ∀ x, blackSet (vis ++ [node]) (rec ++ [node]) x ↔ blackSet vis rec x := by
  intro x
  unfold blackSet
  constructor
  · rintro ⟨hx, hnr⟩
    have hxne : x ≠ node := by
      rintro rfl
      exact hnr (List.mem_append.mpr (Or.inr (List.mem_singleton.mpr rfl)))
    rcases List.mem_append.mp hx with h | h
    · exact ⟨h, fun hr => hnr (List.mem_append.mpr (Or.inl hr))⟩
    · exact absurd (List.mem_singleton.mp h) hxne
  · rintro ⟨hx, hnr⟩
    have hxne : x ≠ node := by
      rintro rfl
      exact hv hx
    refine ⟨List.mem_append.mpr (Or.inl hx), ?_⟩
    intro hmem
    rcases List.mem_append.mp hmem with h | h
    · exact hnr h
    · exact hxne (List.mem_singleton.mp h)

/-- Completeness invariant of the neighbour loop: if the scan of `node`'s
neighbours returns `False`, turning `node` black preserves the invariant. -/
theorem cycleNeighbors_complete (g : Graph)
    (f : String → List String → List String → Option (Bool × List String × List String))
    (HfS : ∀ nb vis rec b v' r', ¬ nb ∈ vis → (∀ x ∈ rec, x ∈ vis) →
      f nb vis rec = Option.some (b, v', r') →
      (∀ x ∈ vis, x ∈ v') ∧ nb ∈ v' ∧ (b = false → r' = rec))
    (HfC : ∀ nb vis rec v' r', ¬ nb ∈ vis → (∀ x ∈ rec, x ∈ vis) →
      DfsInvOn g (blackSet vis rec) → f nb vis rec = Option.some (false, v', r') →
      DfsInvOn g (blackSet v' rec))
    (node : String) :
    ∀ (lst visC rec₀ : List String) (v' r' : List String),
      node ∈ visC → ¬ node ∈ rec₀ → (∀ x ∈ rec₀ ++ [node], x ∈ visC) →
      DfsInvOn g (blackSet visC (rec₀ ++ [node])) →
      (∀ b, graphEdge g node b → b ∈ lst ∨ blackSet visC (rec₀ ++ [node]) b) →
      cycleNeighbors f node lst visC (rec₀ ++ [node]) = Option.some (false, v', r') →
      DfsInvOn g (blackSet v' rec₀) := by
  intro lst
  induction lst with
  | nil =>
    intro visC rec₀ v' r' hnv hnr hsub hInv hedges heq
    simp only [cycleNeighbors, Option.some.injEq, Prod.mk.injEq] at heq
    obtain ⟨-, hv, -⟩ := heq
    rw [← hv]
    have hmono : ∀ x, blackSet visC (rec₀ ++ [node]) x → blackSet visC rec₀ x := by
      rintro x ⟨hx, hxr⟩
      exact ⟨hx, fun h => hxr (List.mem_append.mpr (Or.inl h))⟩
    have hblackn : blackSet visC rec₀ node := ⟨hnv, hnr⟩
    have hedges' : ∀ b, graphEdge g node b → blackSet visC (rec₀ ++ [node]) b := by
      intro b hb
      rcases hedges b hb with h | h
      · cases h
      · exact h
    constructor
    · rintro a ⟨ha, har⟩ b hb
      by_cases han : a = node
      · subst han
        exact hmono b (hedges' b hb)
      · have hba : blackSet visC (rec₀ ++ [node]) a := by
          refine ⟨ha, ?_⟩
          intro hmem
          rcases List.mem_append.mp hmem with h | h
          · exact har h
          · exact han (List.mem_singleton.mp h)
        exact hmono b (hInv.1 a hba b hb)
    · rintro a ⟨ha, har⟩ htg
      by_cases han : a = node
      · obtain ⟨b, hedge, hrtg⟩ := Relation.TransGen.head'_iff.mp htg
        rw [han] at hedge
        have hbb : blackSet visC (rec₀ ++ [node]) b := hedges' b hedge
        have hba : blackSet visC (rec₀ ++ [node]) a :=
          reach_closed g (blackSet visC (rec₀ ++ [node])) hInv.1 hbb hrtg
        rw [han] at hba
        exact hba.2 (List.mem_append.mpr (Or.inr (List.mem_singleton.mpr rfl)))
      · have hba : blackSet visC (rec₀ ++ [node]) a := by
          refine ⟨ha, ?_⟩
          intro hmem
          rcases List.mem_append.mp hmem with h | h
          · exact har h
          · exact han (List.mem_singleton.mp h)
        exact hInv.2 a hba htg
  | cons nb rest ih =>
    intro visC rec₀ v' r' hnv hnr hsub hInv hedges heq
    simp only [cycleNeighbors] at heq
    by_cases h1 : nb ∈ visC
    · rw [if_pos h1] at heq
      by_cases h2 : nb ∈ rec₀ ++ [node]
      · rw [if_pos h2] at heq
        simp only [Option.some.injEq, Prod.mk.injEq] at heq
        obtain ⟨hb, -, -⟩ := heq
        cases hb
      · rw [if_neg h2] at heq
        have hnb : blackSet visC (rec₀ ++ [node]) nb := ⟨h1, h2⟩
        refine ih visC rec₀ v' r' hnv hnr hsub hInv ?_ heq
        intro b hb
        rcases hedges b hb with h | h
        · rcases List.mem_cons.mp h with rfl | h'
          · exact Or.inr hnb
          · exact Or.inl h'
        · exact Or.inr h
    · rw [if_neg h1] at heq
      cases hf : f nb visC (rec₀ ++ [node]) with
      | none => rw [hf] at heq; cases heq
      | some t =>
        obtain ⟨b₂, v₂, r₂⟩ := t
        rw [hf] at heq
        cases b₂ with
        | true =>
          simp only [Option.some.injEq, Prod.mk.injEq] at heq
          obtain ⟨hb, -, -⟩ := heq
          cases hb
        | false =>
          dsimp only at heq
          have hsh := HfS nb visC (rec₀ ++ [node]) false v₂ r₂ h1 hsub hf
          have hrec : r₂ = rec₀ ++ [node] := hsh.2.2 rfl
          rw [hrec] at heq
          have hInv₂ : DfsInvOn g (blackSet v₂ (rec₀ ++ [node])) :=
            HfC nb visC (rec₀ ++ [node]) v₂ r₂ h1 hsub hInv (by rw [hf, hrec])
          have hnbblack : blackSet v₂ (rec₀ ++ [node]) nb :=
            ⟨hsh.2.1, fun h => h1 (hsub nb h)⟩
          refine ih v₂ rec₀ v' r' (hsh.1 node hnv) hnr (fun x hx => hsh.1 x (hsub x hx))
            hInv₂ ?_ heq
          intro b hb
          rcases hedges b hb with h | h
          · rcases List.mem_cons.mp h with rfl | h'
            · exact Or.inr hnbblack
            · exact Or.inl h'
          · exact Or.inr ⟨hsh.1 b h.1, h.2⟩

/-- Completeness of the rooted DFS: a `False` return extends the black set by
the root (and everything explored) while preserving the invariant. -/
theorem hasCycleFrom_complete (g : Graph) :
    ∀ (fuel : Nat) (node : String) (vis rec : List String) (v' r' : List String),
      ¬ node ∈ vis → (∀ x ∈ rec, x ∈ vis) → DfsInvOn g (blackSet vis rec) →
      hasCycleFrom g fuel node vis rec = Option.some (false, v', r') →
      DfsInvOn g (blackSet v' rec) := by
  intro fuel
  induction fuel with
  | zero =>
    intro node vis rec v' r' _ _ _ heq
    simp [hasCycleFrom] at heq
  | succ m ih =>
    intro node vis rec v' r' hnv hsub hInv heq
    simp only [hasCycleFrom] at heq
    have hnrec : ¬ node ∈ rec := fun h => hnv (hsub node h)
    exact cycleNeighbors_complete g (fun nb v r => hasCycleFrom g m nb v r)
      (fun nb vis' rec' b' v'' r'' ha hb hc => hasCycleFrom_shape g m nb vis' rec' b' v'' r'' ha hb hc)
      (fun nb vis' rec' v'' r'' ha hb hc hd => ih nb vis' rec' v'' r'' ha hb hc hd)
      node (graphGet g node) (vis ++ [node]) rec v' r'
      (List.mem_append.mpr (Or.inr (List.mem_singleton.mpr rfl)))
      hnrec
      (fun x hx => by
        rcases List.mem_append.mp hx with h | h
        · exact List.mem_append.mpr (Or.inl (hsub x h))
        · exact List.mem_append.mpr (Or.inr h))
      (dfsInvOn_congr g (blackSet vis rec) (blackSet (vis ++ [node]) (rec ++ [node]))
        (fun x => (black_push vis rec node hnv x).symm) hInv)
      (fun b hb => Or.inl hb)
      heq

end Workflow

namespace Workflow

/-- Soundness of the neighbour loop: a `True` return exhibits a cycle
reachable from the DFS root. -/
theorem cycleNeighbors_sound (g : Graph)
    (f : String → List String → List String → Option (Bool × List String × List String))
    (HfS : ∀ nb vis rec b v' r', ¬ nb ∈ vis → (∀ x ∈ rec, x ∈ vis) →
      f nb vis rec = Option.some (b, v', r') →
      (∀ x ∈ vis, x ∈ v') ∧ nb ∈ v' ∧ (b = false → r' = rec))
    (HfSo : ∀ nb vis rec root v' r', f nb vis rec = Option.some (true, v', r') →
      (∀ x ∈ rec, Relation.ReflTransGen (graphEdge g) x nb ∧
        Relation.ReflTransGen (graphEdge g) root x) →
      Relation.ReflTransGen (graphEdge g) root nb →
      (∀ x ∈ rec, x ∈ vis) →
      ReachesCycle (graphEdge g) root)
    (node root : String) :
    ∀ (lst visC recC : List String) (v' r' : List String),
      (∀ x ∈ lst, graphEdge g node x) →
      (∀ x ∈ recC, Relation.ReflTransGen (graphEdge g) x node ∧
        Relation.ReflTransGen (graphEdge g) root x) →
      Relation.ReflTransGen (graphEdge g) root node →
      (∀ x ∈ recC, x ∈ visC) →
      cycleNeighbors f node lst visC recC = Option.some (true, v', r') →
      ReachesCycle (graphEdge g) root := by
  intro lst
  induction lst with
  | nil =>
    intro visC recC v' r' _ _ _ _ heq
    simp only [cycleNeighbors, Option.some.injEq, Prod.mk.injEq] at heq
    obtain ⟨hb, -, -⟩ := heq
    cases hb
  | cons nb rest ih =>
    intro visC recC v' r' hlst hrec hroot hsub heq
    have hedge : graphEdge g node nb := hlst nb (List.mem_cons_self nb rest)
    simp only [cycleNeighbors] at heq
    by_cases h1 : nb ∈ visC
    · rw [if_pos h1] at heq
      by_cases h2 : nb ∈ recC
      · have hcyc : Relation.TransGen (graphEdge g) nb nb :=
          Relation.TransGen.tail' (hrec nb h2).1 hedge
        exact ⟨nb, (hrec nb h2).2, hcyc⟩
      · rw [if_neg h2] at heq
        exact ih visC recC v' r' (fun x hx => hlst x (List.mem_cons_of_mem nb hx))
          hrec hroot hsub heq
    · rw [if_neg h1] at heq
      cases hf : f nb visC recC with
      | none => rw [hf] at heq; cases heq
      | some t =>
        obtain ⟨b₂, v₂, r₂⟩ := t
        rw [hf] at heq
        cases b₂ with
        | true =>
          refine HfSo nb visC recC root v₂ r₂ hf ?_ ?_ hsub
          · intro x hx
            exact ⟨Relation.ReflTransGen.tail (hrec x hx).1 hedge, (hrec x hx).2⟩
          · exact Relation.ReflTransGen.tail hroot hedge
        | false =>
          dsimp only at heq
          have hsh := HfS nb visC recC false v₂ r₂ h1 hsub hf
          have hr2 : r₂ = recC := hsh.2.2 rfl
          rw [hr2] at heq
          exact ih v₂ recC v' r' (fun x hx => hlst x (List.mem_cons_of_mem nb hx))
            hrec hroot (fun x hx => hsh.1 x (hsub x hx)) heq

/-- Soundness of the rooted DFS: a `True` return means a cycle is reachable
from the root. -/
theorem hasCycleFrom_sound (g : Graph) :
    ∀ (fuel : Nat) (node : String) (vis rec : List String) (root : String) (v' r' : List String),
      hasCycleFrom g fuel node vis rec = Option.some (true, v', r') →
      (∀ x ∈ rec, Relation.ReflTransGen (graphEdge g) x node ∧
        Relation.ReflTransGen (graphEdge g) root x) →
      Relation.ReflTransGen (graphEdge g) root node →
      (∀ x ∈ rec, x ∈ vis) →
      ReachesCycle (graphEdge g) root := by
  intro fuel
  induction fuel with
  | zero =>
    intro node vis rec root v' r' heq _ _ _
    simp [hasCycleFrom] at heq
  | succ m ih =>
    intro node vis rec root v' r' heq hrec hroot hsub
    simp only [hasCycleFrom] at heq
    refine cycleNeighbors_sound g (fun nb v r => hasCycleFrom g m nb v r)
      (fun nb vis' rec' b' v'' r'' ha hb hc => hasCycleFrom_shape g m nb vis' rec' b' v'' r'' ha hb hc)
      (fun nb vis' rec' root' v'' r'' ha hb hc hd => ih nb vis' rec' root' v'' r'' ha hb hc hd)
      node root (graphGet g node) (vis ++ [node]) (rec ++ [node]) v' r'
      (fun x hx => hx) ?_ hroot ?_ heq
    · intro x hx
      rcases List.mem_append.mp hx with h | h
      · exact hrec x h
      · rw [List.mem_singleton.mp h]
        exact ⟨Relation.ReflTransGen.refl, hroot⟩
    · intro x hx
      rcases List.mem_append.mp hx with h | h
      · exact List.mem_append.mpr (Or.inl (hsub x h))
      · exact List.mem_append.mpr (Or.inr h)

/-- A run of the validator loop over `nodes` that returns `ok` proves every
node of `nodes` cycle-free. -/
theorem validateCycles_ok (g : Graph) :
    ∀ (nodes vis : List String),
      DfsInvOn g (blackSet vis []) →
      validateCycles g nodes vis [] = Except.ok () →
      ∀ n ∈ nodes, ¬ Relation.TransGen (graphEdge g) n n := by
  intro nodes
  induction nodes with
  | nil => intro vis _ _ n hn; cases hn
  | cons node rest ih =>
    intro vis hInv hok n hn
    simp only [validateCycles] at hok
    by_cases hv : node ∈ vis
    · rw [if_pos hv] at hok
      rcases List.mem_cons.mp hn with rfl | hn'
      · exact hInv.2 n ⟨hv, by simp⟩
      · exact ih vis hInv hok n hn'
    · rw [if_neg hv] at hok
      cases hcf : hasCycleFrom g (cycleFuel g) node vis [] with
      | none => rw [hcf] at hok; cases hok
      | some t =>
        obtain ⟨b, v', r'⟩ := t
        rw [hcf] at hok
        cases b with
        | true => dsimp only at hok; cases hok
        | false =>
          dsimp only at hok
          have hshape := hasCycleFrom_shape g (cycleFuel g) node vis [] false v' r' hv
            (by intro x hx; cases hx) hcf
          have hr : r' = [] := hshape.2.2 rfl
          rw [hr] at hok
          have hInv' : DfsInvOn g (blackSet v' []) :=
            hasCycleFrom_complete g (cycleFuel g) node vis [] v' r' hv
              (by intro x hx; cases hx) hInv hcf
          rcases List.mem_cons.mp hn with rfl | hn'
          · exact hInv'.2 n ⟨hshape.2.1, by simp⟩
          · exact ih v' hInv' hok n hn'

/-- A run of the validator loop that raises names a node from which a cycle is
reachable (the fuel sentinel is unreachable for key nodes). -/
theorem validateCycles_err (g : Graph) :
    ∀ (nodes vis : List String) (msg : String),
      (∀ n ∈ nodes, n ∈ g.map (fun p => p.1)) →
      validateCycles g nodes vis [] = Except.error msg →
      ∃ n ∈ nodes, msg = cycleMessage n ∧ ReachesCycle (graphEdge g) n := by
  intro nodes
  induction nodes with
  | nil => intro vis msg _ heq; cases heq
  | cons node rest ih =>
    intro vis msg hks heq
    simp only [validateCycles] at heq
    by_cases hv : node ∈ vis
    · rw [if_pos hv] at heq
      obtain ⟨n, hn, hmsg, hreach⟩ :=
        ih vis msg (fun x hx => hks x (List.mem_cons_of_mem node hx)) heq
      exact ⟨n, List.mem_cons_of_mem node hn, hmsg, hreach⟩
    · rw [if_neg hv] at heq
      cases hcf : hasCycleFrom g (cycleFuel g) node vis [] with
      | none =>
        exfalso
        refine hasCycleFrom_fuel g (cycleFuel g) node vis []
          (keys_mem_universe g node (hks node (List.mem_cons_self node rest))) hv
          (by intro x hx; cases hx) ?_ hcf
        have := remainingCount_le_length g vis
        unfold cycleFuel
        omega
      | some t =>
        obtain ⟨b, v', r'⟩ := t
        rw [hcf] at heq
        cases b with
        | true =>
          dsimp only at heq
          have hmsg : msg = cycleMessage node := by
            cases heq
            rfl
          refine ⟨node, List.mem_cons_self node rest, hmsg, ?_⟩
          exact hasCycleFrom_sound g (cycleFuel g) node vis [] node v' r' hcf
            (by intro x hx; cases hx) Relation.ReflTransGen.refl
            (by intro x hx; cases hx)
        | false =>
          dsimp only at heq
          have hshape := hasCycleFrom_shape g (cycleFuel g) node vis [] false v' r' hv
            (by intro x hx; cases hx) hcf
          have hr : r' = [] := hshape.2.2 rfl
          rw [hr] at heq
          obtain ⟨n, hn, hmsg, hreach⟩ :=
            ih v' msg (fun x hx => hks x (List.mem_cons_of_mem node hx)) heq
          exact ⟨n, List.mem_cons_of_mem node hn, hmsg, hreach⟩

/-- `_validate_no_cycles` succeeding means the graph has no dependency cycle. -/
theorem validate_no_cycles_ok (g : Graph) (h : validate_no_cycles g = Except.ok ()) :
    ∀ n, ¬ Relation.TransGen (graphEdge g) n n := by
  intro n htg
  obtain ⟨b, hedge, -⟩ := Relation.TransGen.head'_iff.mp htg
  have hkeys : n ∈ g.map (fun p => p.1) := (graphEdge_mem g n b hedge).1
  have hInv0 : DfsInvOn g (blackSet [] []) := by
    constructor
    · rintro a ⟨ha, -⟩; cases ha
    · rintro a ⟨ha, -⟩; cases ha
  unfold validate_no_cycles at h
  exact validateCycles_ok g (g.map (fun p => p.1)) [] hInv0 h n hkeys htg

/-- `_validate_no_cycles` raising names a graph key from which a cycle is
reachable. -/
theorem validate_no_cycles_err (g : Graph) (msg : String)
    (h : validate_no_cycles g = Except.error msg) :
    ∃ n, msg = cycleMessage n ∧ n ∈ g.map (fun p => p.1) ∧ ReachesCycle (graphEdge g) n := by
  unfold validate_no_cycles at h
  obtain ⟨n, hn, hmsg, hreach⟩ :=
    validateCycles_err g (g.map (fun p => p.1)) [] msg (fun x hx => hx) h
  exact ⟨n, hmsg, hn, hreach⟩

end Workflow

namespace Workflow

theorem lookup_eq_none_of_not_mem_keys {α : Type} :
    ∀ (d : List (String × α)) (k : String),
      ¬ k ∈ d.map (fun p => p.1) → List.lookup k d = Option.none := by
  intro d
  induction d with
  | nil => intro k _; rfl
  | cons p rest ih =>
    rcases p with ⟨a, b⟩
    intro k hk
    have hne : k ≠ a := by
      rintro rfl
      exact hk (List.mem_map.mpr ⟨(k, b), List.mem_cons_self _ _, rfl⟩)
    have h2 : (k == a) = false := beq_eq_false_iff_ne.mpr hne
    simp only [List.lookup, h2]
    exact ih k (fun h => hk (by
      rcases List.mem_map.mp h with ⟨q, hq, hq1⟩
      exact List.mem_map.mpr ⟨q, List.mem_cons_of_mem _ hq, hq1⟩))

/-- With every dependency reference valid and distinct step names, the build
loop succeeds and assembles one graph entry per step, in order. -/
theorem buildGraphLoop_ok (names : List String) :
    ∀ (steps : List StepDef) (acc : Graph),
      (∀ s ∈ steps, ∀ d ∈ s.depends_on, d ∈ names) →
      (∀ s ∈ steps, ¬ s.name ∈ acc.map (fun p => p.1)) →
      (stepNames steps).Nodup →
      buildGraphLoop names steps acc = Except.ok (acc ++ stepsGraph steps) := by
  intro steps
  induction steps with
  | nil =>
    intro acc _ _ _
    simp [buildGraphLoop, stepsGraph]
  | cons s rest ih =>
    intro acc hdeps hfresh hnd
    have hnone : firstMissingDep s.depends_on names = Option.none := by
      unfold firstMissingDep
      rw [List.find?_eq_none]
      intro d hd
      have hmem := hdeps s (List.mem_cons_self s rest) d hd
      simp
      exact hmem
    have hinsert : dictInsert acc s.name s.depends_on = acc ++ [(s.name, s.depends_on)] := by
      unfold dictInsert
      rw [lookup_eq_none_of_not_mem_keys acc s.name (hfresh s (List.mem_cons_self s rest))]
      simp
    have hnd' : (stepNames rest).Nodup := (List.nodup_cons.mp hnd).2
    have hsnotin : ¬ s.name ∈ stepNames rest := (List.nodup_cons.mp hnd).1
    have hfresh' : ∀ s' ∈ rest, ¬ s'.name ∈ (acc ++ [(s.name, s.depends_on)]).map (fun p => p.1) := by
      intro s' hs' hmem
      rw [List.map_append] at hmem
      rcases List.mem_append.mp hmem with h | h
      · exact hfresh s' (List.mem_cons_of_mem s hs') h
      · have : s'.name = s.name := by simpa using h
        exact hsnotin (this ▸ List.mem_map.mpr ⟨s', hs', rfl⟩)
    have hdeps' : ∀ s' ∈ rest, ∀ d ∈ s'.depends_on, d ∈ names :=
      fun s' hs' => hdeps s' (List.mem_cons_of_mem s hs')
    simp only [buildGraphLoop, hnone, hinsert]
    rw [ih (acc ++ [(s.name, s.depends_on)]) hdeps' hfresh' hnd']
    simp [stepsGraph, List.append_assoc]

/-- The keys of the assembled graph are the step names. -/
theorem stepsGraph_keys (steps : List StepDef) :
    (stepsGraph steps).map (fun p => p.1) = stepNames steps := by
  simp [stepsGraph, stepNames, List.map_map]

/-- Under unique step names, the edges of the assembled graph are exactly the
declared dependencies. -/
theorem stepsGraph_edge_iff (steps : List StepDef) (hnd : (stepNames steps).Nodup)
    (a b : String) : graphEdge (stepsGraph steps) a b ↔ depEdge steps a b := by
  induction steps with
  | nil =>
    simp [graphEdge, graphGet, stepsGraph, depEdge, List.lookup]
  | cons s rest ih =>
    have hnd' : (stepNames rest).Nodup := (List.nodup_cons.mp hnd).2
    have hsnotin : ¬ s.name ∈ stepNames rest := (List.nodup_cons.mp hnd).1
    by_cases ha : a = s.name
    · have hbeq : (a == s.name) = true := beq_iff_eq.mpr ha
      constructor
      · intro h
        unfold graphEdge graphGet at h
        simp only [stepsGraph, List.map_cons, List.lookup, hbeq] at h
        exact ⟨s, List.mem_cons_self s rest, ha.symm, h⟩
      · rintro ⟨s', hs', hname, hb⟩
        unfold graphEdge graphGet
        simp only [stepsGraph, List.map_cons, List.lookup, hbeq]
        rcases List.mem_cons.mp hs' with rfl | hs''
        · exact hb
        · exfalso
          apply hsnotin
          rw [← ha, ← hname]
          exact List.mem_map.mpr ⟨s', hs'', rfl⟩
    · have hbeq : (a == s.name) = false := beq_eq_false_iff_ne.mpr ha
      have hstep : graphEdge (stepsGraph (s :: rest)) a b ↔ graphEdge (stepsGraph rest) a b := by
        unfold graphEdge graphGet
        simp only [stepsGraph, List.map_cons, List.lookup, hbeq]
      rw [hstep, ih hnd']
      constructor
      · rintro ⟨s', hs', hname, hb⟩
        exact ⟨s', List.mem_cons_of_mem s hs', hname, hb⟩
      · rintro ⟨s', hs', hname, hb⟩
        rcases List.mem_cons.mp hs' with rfl | hs''
        · exact absurd hname.symm ha
        · exact ⟨s', hs'', hname, hb⟩

/-- C5: on a step list with an unknown dependency reference or a dependency
cycle (under the spec's invariant of unique step names), `execute_workflow`
fails before any step is dispatched or executed; the raised message names an
offending step (the step with the dangling reference, or a step from which a
cycle is reachable), and the persisted state is FAILED with that message in
metadata and no step results. -/
theorem c5_theorem (wid : String) (steps : List StepDef) (input : List (String × PyObj))
    (store : List (String × WorkflowState))
    (hnd : (stepNames steps).Nodup)
    (hbad : (∃ s ∈ steps, ∃ d ∈ s.depends_on, ¬ d ∈ stepNames steps) ∨
            (∃ n, Relation.TransGen (depEdge steps) n n)) :
    ∃ msg, execute_workflow wid steps input store =
      { result := Except.error msg,
        state := { workflow_id := wid, status := WorkflowStatus.FAILED, step_results := [],
                   input_data := input, metadata_error := Option.some msg },
        events := [], dispatches := [], executed := [],
        store := dictInsert store wid
          { workflow_id := wid, status := WorkflowStatus.FAILED, step_results := [],
            input_data := input, metadata_error := Option.some msg } } ∧
      ((∃ s ∈ steps, ∃ d ∈ s.depends_on, ¬ d ∈ stepNames steps ∧
          msg = unknownDepMessage s.name d) ∨
       (∃ n, msg = cycleMessage n ∧ n ∈ stepNames steps ∧ ReachesCycle (depEdge steps) n)) := by
  by_cases hmiss : ∃ s ∈ steps, ∃ d ∈ s.depends_on, ¬ d ∈ stepNames steps
  · obtain ⟨s, d, herr, hs, hd, hdn⟩ := build_dependency_graph_error_of_missing steps hmiss
    exact ⟨unknownDepMessage s.name d,
      execute_workflow_validation_error wid steps input store _ herr,
      Or.inl ⟨s, hs, d, hd, hdn, rfl⟩⟩
  · have hcyc : ∃ n, Relation.TransGen (depEdge steps) n n := hbad.resolve_left hmiss
    have hclean : ∀ s ∈ steps, ∀ d ∈ s.depends_on, d ∈ stepNames steps := by
      intro s hs d hd
      by_contra hc
      exact hmiss ⟨s, hs, d, hd, hc⟩
    have hloop := buildGraphLoop_ok (stepNames steps) steps [] hclean
      (by intro s _ h; simp at h) hnd
    rw [List.nil_append] at hloop
    obtain ⟨n₀, hn₀⟩ := hcyc
    have htg' : Relation.TransGen (graphEdge (stepsGraph steps)) n₀ n₀ :=
      Relation.TransGen.mono (fun a b hab => (stepsGraph_edge_iff steps hnd a b).mpr hab) hn₀
    obtain ⟨msg', hv⟩ : ∃ msg', validate_no_cycles (stepsGraph steps) = Except.error msg' := by
      cases hv : validate_no_cycles (stepsGraph steps) with
      | ok u => cases u; exact absurd htg' (validate_no_cycles_ok _ hv n₀)
      | error m => exact ⟨m, rfl⟩
    have hbuild : build_dependency_graph steps = Except.error msg' := by
      unfold build_dependency_graph
      rw [hloop]
      dsimp only
      rw [hv]
    obtain ⟨n, hmsg, hnkeys, hreach⟩ := validate_no_cycles_err (stepsGraph steps) msg' hv
    rw [stepsGraph_keys] at hnkeys
    refine ⟨msg', execute_workflow_validation_error wid steps input store msg' hbuild,
      Or.inr ⟨n, hmsg, hnkeys, ?_⟩⟩
    obtain ⟨c, hrt, htg⟩ := hreach
    exact ⟨c,
      Relation.ReflTransGen.mono (fun a b hab => (stepsGraph_edge_iff steps hnd a b).mp hab) hrt,
      Relation.TransGen.mono (fun a b hab => (stepsGraph_edge_iff steps hnd a b).mp hab) htg⟩

/-- C5 witness: the one-step workflow whose step depends on the unknown name
`"ghost"`. -/
theorem c5_witness :
    (stepNames [ghostDepStep]).Nodup ∧
    ((∃ s ∈ [ghostDepStep], ∃ d ∈ s.depends_on, ¬ d ∈ stepNames [ghostDepStep]) ∨
     (∃ n, Relation.TransGen (depEdge [ghostDepStep]) n n)) ∧
    (∃ msg, execute_workflow "wfv" [ghostDepStep] [] [] =
      { result := Except.error msg,
        state := { workflow_id := "wfv", status := WorkflowStatus.FAILED, step_results := [],
                   input_data := [], metadata_error := Option.some msg },
        events := [], dispatches := [], executed := [],
        store := dictInsert [] "wfv"
          { workflow_id := "wfv", status := WorkflowStatus.FAILED, step_results := [],
            input_data := [], metadata_error := Option.some msg } } ∧
      ((∃ s ∈ [ghostDepStep], ∃ d ∈ s.depends_on, ¬ d ∈ stepNames [ghostDepStep] ∧
          msg = unknownDepMessage s.name d) ∨
       (∃ n, msg = cycleMessage n ∧ n ∈ stepNames [ghostDepStep] ∧
         ReachesCycle (depEdge [ghostDepStep]) n))) :=
  ⟨by decide, Or.inl (by decide),
    c5_theorem "wfv" [ghostDepStep] [] [] (by decide) (Or.inl (by decide))⟩

end Workflow
